import Mathlib

/-!
Shallow embedding of the Sudoku AC-3 + backtracking solver (`ac3.py`).

Conventions of the embedding:
* a Python `set` of ints becomes a `Finset ℕ`; a dict keyed by cells becomes a
  function out of `Cell`;
* iteration order over Python sets/dicts is pinned to row-major order
  (`2.7+` dicts iterate in insertion order, which for `self.domains` is
  row-major; set order is unspecified, and we pin the canonical one);
* the `while` loop of `ac3` is embedded as a small-step function `ac3_step`
  on an explicit state, iterated a provably sufficient number of times;
* the recursion of `backtrack` is embedded with an explicit fuel counter,
  which a theorem shows is never exhausted from the real entry point.
-/

set_option autoImplicit false
set_option maxRecDepth 100000

open Finset

/-- A cell of the 9×9 board, identified by `(row, column)`. -/
abbrev Cell : Type := Fin 9 × Fin 9

/-- A 9×9 grid of integers; `0` means an empty cell, `1`–`9` a given clue. -/
abbrev Grid : Type := Fin 9 → Fin 9 → ℕ

/-- Well-formed input per the interface description: every entry lies in `[0, 9]`. -/
def gridWF (g : Grid) : Prop := ∀ i j : Fin 9, g i j ≤ 9

/-- The domain store: for every cell, the set of values still considered legal. -/
abbrev Domains : Type := Cell → Finset ℕ

/-- `initialize_domains`: an empty cell gets `set(range(1, 10))`, a clue cell
gets the singleton of its clue. -/
def initialize_domains (puzzle : Grid) : Domains := fun c =>
  if puzzle c.1 c.2 = 0 then Finset.Icc 1 9 else {puzzle c.1 c.2}

/-- `initialize_neighbors`: row mates (`k ≠ j`), column mates (`k ≠ i`) and the
cells of the 3×3 sub-grid other than the cell itself.  The Python loop
`for r in range(start_row, start_row + 3)` with `start_row = 3 * (i // 3)`
walks exactly the rows `r` with `r / 3 = i / 3`, and similarly for columns. -/
def initialize_neighbors (c : Cell) : Finset Cell :=
  (((univ : Finset (Fin 9)).filter fun k => k ≠ c.2).image fun k => (c.1, k)) ∪
  (((univ : Finset (Fin 9)).filter fun k => k ≠ c.1).image fun k => (k, c.2)) ∪
  ((univ : Finset Cell).filter fun d =>
    d.1.val / 3 = c.1.val / 3 ∧ d.2.val / 3 = c.2.val / 3 ∧ d ≠ c)

/-- All 81 cells in row-major order: the iteration order of `self.domains`
(Python dicts iterate in insertion order). -/
def allCellsList : List Cell :=
  (List.finRange 9).flatMap fun i => (List.finRange 9).map fun j => (i, j)

/-- The neighbor set of a cell, iterated in the pinned row-major order.  This
is how the embedding iterates over the Python set `self.neighbors[xi]`; the
filter condition is the disjunction of the three `add` conditions of
`initialize_neighbors` (row mates, column mates, block mates). -/
def neighborsList (c : Cell) : List Cell :=
  allCellsList.filter fun d =>
    (d.1 = c.1 ∧ d.2 ≠ c.2) ∨ (d.1 ≠ c.1 ∧ d.2 = c.2) ∨
    (d.1.val / 3 = c.1.val / 3 ∧ d.2.val / 3 = c.2.val / 3 ∧ d ≠ c)

/-- `constraint_satisfied`: the binary inequality constraint. -/
def constraint_satisfied (x y : ℕ) : Bool := x != y

/-- `revise(xi, xj)`: remove from `xi`'s domain every value with no support in
`xj`'s domain; return whether anything was removed together with the updated
store.  (The Python code mutates `self.domains[xi]` in place; removal of `x`
does not depend on the other removals, so the result is the filter below.) -/
def revise (d : Domains) (xi xj : Cell) : Bool × Domains :=
  let di' : Finset ℕ := (d xi).filter fun x => ∃ y ∈ d xj, constraint_satisfied x y = true
  (decide (di' ≠ d xi), Function.update d xi di')

/-- The state of the `ac3` while-loop: pending worklist, current domain store,
the `queue_lengths` diagnostic trace, and `none` while the loop is still
running / `some b` once the function has returned `b`. -/
structure AC3State where
  queue : List (Cell × Cell)
  domains : Domains
  trace : List ℕ
  result : Option Bool

/-- The arcs `(xk, xi)` for `xk` a neighbor of `xi` other than `xj`, appended
to the worklist after a successful revision. -/
def enqueue_arcs (xi xj : Cell) : List (Cell × Cell) :=
  ((neighborsList xi).filter fun xk => xk ≠ xj).map fun xk => (xk, xi)

/-- One iteration of the `while queue:` loop of `ac3` (identity once the
function has returned).  Mirrors the source: record `len(queue)`, pop the
front arc, revise, and either fail on an emptied domain, re-enqueue the
incoming arcs, or just continue. -/
def ac3_step (s : AC3State) : AC3State :=
  match s.result with
  | some _ => s
  | none =>
    match s.queue with
    | [] => { s with result := some true }
    | (xi, xj) :: rest =>
      let tr := s.trace ++ [s.queue.length]
      let r := revise s.domains xi xj
      if r.1 then
        if r.2 xi = ∅ then
          { queue := rest, domains := r.2, trace := tr, result := some false }
        else
          { queue := rest ++ enqueue_arcs xi xj, domains := r.2, trace := tr, result := none }
      else
        { queue := rest, domains := s.domains, trace := tr, result := none }

/-- The initial worklist `[(xi, xj) for xi in self.domains for xj in self.neighbors[xi]]`. -/
def initial_queue : List (Cell × Cell) :=
  allCellsList.flatMap fun xi => (neighborsList xi).map fun xj => (xi, xj)

/-- The state at the top of `ac3`. -/
def ac3_init (d : Domains) : AC3State := ⟨initial_queue, d, [], none⟩

/-- An iteration budget provably sufficient for the loop to return:
`81 * 20` initial arcs plus at most `20` re-enqueued arcs per pruned value,
with at most `9 * 81` values ever present, plus one final iteration to
observe the empty worklist. -/
def ac3_fuel : ℕ := 16201

/-- A whole run of `ac3` on a domain store. -/
def ac3_run (d : Domains) : AC3State := ac3_step^[ac3_fuel] (ac3_init d)

/-- `is_solved`: every domain has exactly one value left. -/
def is_solved (d : Domains) : Bool := decide (∀ c : Cell, (d c).card = 1)

/-- `get_solution`: read the one element of each (singleton) domain, like
`next(iter(...))`; the embedding pins the choice to the minimum, with `0` as
the out-of-domain default on an empty set. -/
def get_solution (d : Domains) : Grid := fun i j => (d (i, j)).min.untop' 0

/-- The search `assignment`: a Python dict from cells to committed values,
embedded as an association list (new bindings are only ever added for absent
keys, so the list order never matters beyond first-match lookup and length). -/
abbrev Assignment : Type := List (Cell × ℕ)

/-- Dictionary lookup (`assignment[c]` / `c in assignment`). -/
def alookup (a : Assignment) (c : Cell) : Option ℕ :=
  match a with
  | [] => none
  | (c', v) :: rest => if c' = c then some v else alookup rest c

/-- `select_unassigned_variable`: among unassigned cells (in `self.domains`
iteration order), the first one with the fewest remaining values (Python's
`min` keeps the earliest minimum).  `none` only on the empty list, where
Python's `min` would raise. -/
def select_unassigned_variable (d : Domains) (a : Assignment) : Option Cell :=
  (allCellsList.filter fun v => (alookup a v).isNone).argmin fun var => (d var).card

/-- `is_consistent`: no already-assigned neighbor holds the candidate value. -/
def is_consistent (var : Cell) (value : ℕ) (a : Assignment) : Bool :=
  (neighborsList var).all fun n =>
    match alookup a n with
    | some w => w != value
    | none => true

/-- `count_constraints`: across unassigned neighbors, how many of their
remaining domain values the candidate value would eliminate. -/
def count_constraints (d : Domains) (var : Cell) (value : ℕ) (a : Assignment) : ℕ :=
  (((neighborsList var).filter fun n => (alookup a n).isNone).map fun n =>
    ((d n).filter fun w => constraint_satisfied value w = false).card).sum

/-- `least_constraining_values`: the candidate values of `var`, stably sorted
by ascending constraining cost.  (`list(set)` iteration is pinned to ascending
numeric order; Python's stable `sort` becomes `mergeSort`.) -/
def least_constraining_values (d : Domains) (var : Cell) (a : Assignment) : List ℕ :=
  ((d var).sort (· ≤ ·)).mergeSort fun x y =>
    decide (count_constraints d var x a ≤ count_constraints d var y a)

/-- The `for value in ...` loop body of `backtrack`, abstracted over the
recursive call `bt`.  Results are wrapped in an outer `Option`: `none` means
the fuel of the embedding ran out (which never happens from the real entry
point), `some none` is Python's `return None`, and `some (some r)` is a
returned assignment.  The `del assignment[var]` of the source is implicit:
the recursion continues with the unextended `a`. -/
def tryValues (bt : Assignment → Option (Option Assignment)) (var : Cell)
    (a : Assignment) : List ℕ → Option (Option Assignment)
  | [] => some none
  | value :: rest =>
    if is_consistent var value a then
      match bt ((var, value) :: a) with
      | none => none
      | some (some r) => some (some r)
      | some none => tryValues bt var a rest
    else tryValues bt var a rest

/-- `backtrack`: success when the assignment covers all 81 cells; otherwise
choose a cell by MRV and try its values in LCV order.  The `none` branch of
`select_unassigned_variable` is unreachable from real calls (there, fewer
than 81 assigned distinct cells leave some cell unassigned). -/
def backtrack (d : Domains) : ℕ → Assignment → Option (Option Assignment)
  | 0, _ => none
  | fuel + 1, a =>
    if a.length = 81 then some (some a)
    else
      match select_unassigned_variable d a with
      | none => some none
      | some var => tryValues (backtrack d fuel) var a (least_constraining_values d var a)

/-- `backtracking_search`: run `backtrack` from the empty assignment.  Fuel 82
is provably sufficient (the assignment grows at every nesting level), so the
`getD` default is never taken. -/
def backtracking_search (d : Domains) : Option Assignment :=
  (backtrack d 82 []).getD none

/-- What `solve_sudoku` communicates to its caller: the solved grid or the
unsatisfiable signal `none`, the `queue_lengths` diagnostic trace, and whether
the backtracking engine was invoked (the source announces this on stdout). -/
structure SolveResult where
  solution : Option Grid
  queue_lengths : List ℕ
  backtrack_invoked : Bool

/-- The part of `solve_sudoku` after the AC-3 run, as a function of the final
loop state.  Python's `if solution:` is falsy both for `None` and for an
empty dict, hence the `isEmpty` test. -/
def solveBody (s : AC3State) : SolveResult :=
  match s.result with
  | some true =>
    if is_solved s.domains then ⟨some (get_solution s.domains), s.trace, false⟩
    else
      match backtracking_search s.domains with
      | some sol =>
        if sol.isEmpty then ⟨none, s.trace, true⟩
        else ⟨some (fun i j => (alookup sol (i, j)).getD 0), s.trace, true⟩
      | none => ⟨none, s.trace, true⟩
  | _ => ⟨none, s.trace, false⟩

/-- `solve_sudoku`: build the stores, run AC-3, then hand the final loop
state to `solveBody` (on failure report unsatisfiable; if the store is fully
determined materialize it; otherwise run backtracking search and materialize
its assignment via `solution.get((i, j), 0)`). -/
def solve_sudoku (g : Grid) : SolveResult :=
  solveBody (ac3_run (initialize_domains g))

/-! ### Specification-side predicates and loop invariants -/

/-- The specified neighbor relation: a different cell sharing the row, the
column, or the 3×3 sub-block.  This is the spec's description, to be compared
with the source's `initialize_neighbors`. -/
def neighbor_spec (c d : Cell) : Prop :=
  d ≠ c ∧ (d.1 = c.1 ∨ d.2 = c.2 ∨ (d.1.val / 3 = c.1.val / 3 ∧ d.2.val / 3 = c.2.val / 3))

instance (c d : Cell) : Decidable (neighbor_spec c d) := by
  unfold neighbor_spec; infer_instance

/-- Arc consistency of the directed arc `(xi, xj)`: every value of `xi`'s
domain has a supporting (differing) value in `xj`'s domain. -/
def arcCons (d : Domains) (xi xj : Cell) : Prop :=
  ∀ x ∈ d xi, ∃ y ∈ d xj, x ≠ y

/-- The total number of values over all 81 domains. -/
def totalSize (d : Domains) : ℕ := ∑ c : Cell, (d c).card

/-- All arcs ever on the worklist connect a cell to one of its neighbors. -/
def QueueArcs (s : AC3State) : Prop := ∀ p ∈ s.queue, neighbor_spec p.1 p.2

/-- The key resource invariant: worklist length plus 20 per remaining value
never exceeds `16200 = 81*20 + 20*729`. -/
def QueueBound (s : AC3State) : Prop :=
  s.queue.length + 20 * totalSize s.domains ≤ 16200

/-- Domains are nonempty at every state not already reporting failure. -/
def NonemptyDoms (s : AC3State) : Prop :=
  s.result = some false ∨ ∀ c, s.domains c ≠ ∅

/-- Once the loop reports success the worklist is empty. -/
def TrueNil (s : AC3State) : Prop := s.result = some true → s.queue = []

/-- The arc-consistency invariant of AC-3: unless the loop has already
failed, every neighbor arc is either still pending on the worklist or
already consistent. -/
def ACIprop (s : AC3State) : Prop :=
  s.result = some false ∨
    ∀ a b : Cell, neighbor_spec a b → (a, b) ∈ s.queue ∨ arcCons s.domains a b

/-- Distinct keys: what makes an association list a faithful picture of a
Python dict. -/
def NodupKeys (a : Assignment) : Prop := (a.map Prod.fst).Nodup

/-- The invariant of search assignments: distinct keys, values drawn from the
domain store, and no two assigned neighbors sharing a value. -/
def AssignOK (d : Domains) (a : Assignment) : Prop :=
  NodupKeys a ∧ (∀ p ∈ a, p.2 ∈ d p.1) ∧
    ∀ p ∈ a, ∀ q ∈ a, neighbor_spec p.1 q.1 → p.2 ≠ q.2

/-- A total solution of the store `d`: it picks a value inside every domain
and respects every neighbor constraint. -/
def SolOf (d : Domains) (sol : Cell → ℕ) : Prop :=
  (∀ c, sol c ∈ d c) ∧ ∀ a b : Cell, neighbor_spec a b → sol a ≠ sol b

/-- The partial assignment `a` agrees with the total solution `sol`. -/
def Extends (sol : Cell → ℕ) (a : Assignment) : Prop := ∀ p ∈ a, p.2 = sol p.1

/-- The cells of row `i`. -/
def rowCells (i : Fin 9) : Finset Cell := (univ : Finset Cell).filter fun c => c.1 = i

/-- The cells of column `j`. -/
def colCells (j : Fin 9) : Finset Cell := (univ : Finset Cell).filter fun c => c.2 = j

/-- The cells of the 3×3 block `b`. -/
def blockCells (b : Fin 3 × Fin 3) : Finset Cell :=
  (univ : Finset Cell).filter fun c => c.1.val / 3 = b.1.val ∧ c.2.val / 3 = b.2.val

/-- How many cells of the unit `u` hold value `v`. -/
def unitCount (s : Grid) (u : Finset Cell) (v : ℕ) : ℕ :=
  (u.filter fun c => s c.1 c.2 = v).card

/-- A fully valid Sudoku grid: every row, column, and 3×3 block holds each of
`1..9` exactly once. -/
def validSolution (s : Grid) : Prop :=
  (∀ i : Fin 9, ∀ v ∈ Finset.Icc (1 : ℕ) 9, unitCount s (rowCells i) v = 1) ∧
  (∀ j : Fin 9, ∀ v ∈ Finset.Icc (1 : ℕ) 9, unitCount s (colCells j) v = 1) ∧
  ∀ b : Fin 3 × Fin 3, ∀ v ∈ Finset.Icc (1 : ℕ) 9, unitCount s (blockCells b) v = 1

/-- `s` is a valid completion of the puzzle `g`: it retains every clue of `g`
and is fully valid. -/
def isCompletion (g s : Grid) : Prop :=
  (∀ i j : Fin 9, g i j ≠ 0 → s i j = g i j) ∧ validSolution s

instance (g : Grid) : Decidable (gridWF g) := by
  unfold gridWF; infer_instance

instance (s : Grid) : Decidable (validSolution s) := by
  unfold validSolution unitCount; infer_instance

instance (g s : Grid) : Decidable (isCompletion g s) := by
  unfold isCompletion; infer_instance

/-! ### Traced and state-threaded variants -/

/-- `tryValues`, additionally logging every `(cell, value)` combination the
`for value in ...` loop examines, in order. -/
def tryValuesT (bt : Assignment → Option (Option Assignment) × List (Cell × ℕ)) (var : Cell)
    (a : Assignment) : List ℕ → Option (Option Assignment) × List (Cell × ℕ)
  | [] => (some none, [])
  | value :: rest =>
    if is_consistent var value a then
      let r := bt ((var, value) :: a)
      match r.1 with
      | some none =>
        let t := tryValuesT bt var a rest
        (t.1, ((var, value) :: r.2) ++ t.2)
      | other => (other, (var, value) :: r.2)
    else
      let t := tryValuesT bt var a rest
      (t.1, (var, value) :: t.2)

/-- `backtrack`, additionally returning the search trace (sequence of chosen
cells with the values tried for them). -/
def backtrackT (d : Domains) : ℕ → Assignment → Option (Option Assignment) × List (Cell × ℕ)
  | 0, _ => (none, [])
  | fuel + 1, a =>
    if a.length = 81 then (some (some a), [])
    else
      match select_unassigned_variable d a with
      | none => (some none, [])
      | some var => tryValuesT (backtrackT d fuel) var a (least_constraining_values d var a)

/-- The full search trace of a `solve_sudoku` run (empty when backtracking is
never invoked). -/
def search_trace (g : Grid) : List (Cell × ℕ) :=
  let s := ac3_run (initialize_domains g)
  match s.result with
  | some true =>
    if is_solved s.domains then [] else (backtrackT s.domains 82 []).2
  | _ => []

/-- The solver state carried by `self` in the source: the puzzle, the domain
store, and the neighbor relation, as built by `__init__`. -/
structure SudokuCSP where
  puzzle : Grid
  domains : Domains
  neighbors : Cell → Finset Cell

/-- `__init__`: store the puzzle and build domains and neighbors from it. -/
def SudokuCSP.make (p : Grid) : SudokuCSP :=
  ⟨p, initialize_domains p, initialize_neighbors⟩

/-- `select_unassigned_variable` reading the store through `self`, returning
the (unchanged) object state alongside, to make mutation visible. -/
def select_unassigned_variableS (csp : SudokuCSP) (a : Assignment) :
    Option Cell × SudokuCSP :=
  ((allCellsList.filter fun v => (alookup a v).isNone).argmin (fun var =>
    (csp.domains var).card), csp)

/-- `is_consistent` through `self`. -/
def is_consistentS (csp : SudokuCSP) (var : Cell) (value : ℕ) (a : Assignment) :
    Bool × SudokuCSP :=
  ((allCellsList.filter (· ∈ csp.neighbors var)).all (fun n =>
    match alookup a n with
    | some w => w != value
    | none => true), csp)

/-- `count_constraints` through `self`. -/
def count_constraintsS (csp : SudokuCSP) (var : Cell) (value : ℕ) (a : Assignment) :
    ℕ × SudokuCSP :=
  ((((allCellsList.filter (· ∈ csp.neighbors var)).filter fun n =>
      (alookup a n).isNone).map fun n =>
    ((csp.domains n).filter fun w => constraint_satisfied value w = false).card).sum, csp)

/-- `least_constraining_values` through `self`. -/
def least_constraining_valuesS (csp : SudokuCSP) (var : Cell) (a : Assignment) :
    List ℕ × SudokuCSP :=
  (((csp.domains var).sort (· ≤ ·)).mergeSort (fun x y =>
    decide ((count_constraintsS csp var x a).1 ≤ (count_constraintsS csp var y a).1)), csp)

/-- The value loop of `backtrack` through `self`, threading the object state
through every call exactly as the Python evaluation order does. -/
def tryValuesS (bt : Assignment → SudokuCSP → Option (Option Assignment) × SudokuCSP)
    (var : Cell) (a : Assignment) :
    List ℕ → SudokuCSP → Option (Option Assignment) × SudokuCSP
  | [], csp => (some none, csp)
  | value :: rest, csp =>
    let c1 := is_consistentS csp var value a
    if c1.1 then
      let r := bt ((var, value) :: a) c1.2
      match r.1 with
      | some none => tryValuesS bt var a rest r.2
      | other => (other, r.2)
    else tryValuesS bt var a rest c1.2

/-- `backtrack` through `self`. -/
def backtrackS (fuel : ℕ) : Assignment → SudokuCSP → Option (Option Assignment) × SudokuCSP :=
  match fuel with
  | 0 => fun _ csp => (none, csp)
  | fuel + 1 => fun a csp =>
    if a.length = 81 then (some (some a), csp)
    else
      let sel := select_unassigned_variableS csp a
      match sel.1 with
      | none => (some none, sel.2)
      | some var =>
        let lcv := least_constraining_valuesS sel.2 var a
        tryValuesS (backtrackS fuel) var a lcv.1 lcv.2

/-- `backtracking_search` through `self`. -/
def backtracking_searchS (csp : SudokuCSP) : Option Assignment × SudokuCSP :=
  let r := backtrackS 82 [] csp
  (r.1.getD none, r.2)

/-! ### Concrete grids used as test inputs -/

/-- A full, valid Sudoku grid given entirely as clues. -/
def solvedGrid : Grid := fun i j => (i.val * 3 + i.val / 3 + j.val) % 9 + 1

/-- A grid whose only clue is a `5` at `(0, 1)`: the very first popped arc
`((0,0), (0,1))` prunes `5` from the domain of `(0, 0)` and re-enqueues 19
arcs, pushing the worklist above its initial size. -/
def oneClueGrid : Grid := fun i j => if i.val = 0 ∧ j.val = 1 then 5 else 0

/-- A grid with two `5` clues next to each other in row 0: direct duplicates
in a row. -/
def dupRowGrid : Grid := fun i j => if i.val = 0 ∧ (j.val = 0 ∨ j.val = 1) then 5 else 0

/-- A trivial store used to exercise `backtrack` on a concrete input. -/
def onesDomains : Domains := fun _ => {1}

/-- A complete 81-cell assignment used to exercise `backtrack` concretely. -/
def fullAssignment : Assignment := allCellsList.map fun c => (c, 1)

/-! ### The neighbor relation -/

theorem mem_initialize_neighbors {c d : Cell} :
    d ∈ initialize_neighbors c ↔ neighbor_spec c d := by
  obtain ⟨ci, cj⟩ := c
  obtain ⟨di, dj⟩ := d
  simp only [initialize_neighbors, neighbor_spec, Finset.mem_union, Finset.mem_image,
    Finset.mem_filter, Finset.mem_univ, true_and, Prod.mk.injEq, Prod.ext_iff, ne_eq]
  aesop

theorem neighbor_spec_symm {c d : Cell} (h : neighbor_spec c d) : neighbor_spec d c := by
  obtain ⟨hne, h | h | h⟩ := h
  · exact ⟨fun he => hne he.symm, Or.inl h.symm⟩
  · exact ⟨fun he => hne he.symm, Or.inr (Or.inl h.symm)⟩
  · exact ⟨fun he => hne he.symm, Or.inr (Or.inr ⟨h.1.symm, h.2.symm⟩)⟩

theorem neighbor_spec_irrefl (c : Cell) : ¬ neighbor_spec c c := fun h => h.1 rfl

theorem neighbor_spec_ne {c d : Cell} (h : neighbor_spec c d) : d ≠ c := h.1

theorem mem_allCellsList (c : Cell) : c ∈ allCellsList := by
  obtain ⟨ci, cj⟩ := c
  simp only [allCellsList, List.mem_flatMap, List.mem_map, List.mem_finRange, true_and]
  exact ⟨ci, ⟨cj, rfl⟩⟩

theorem allCellsList_nodup : allCellsList.Nodup := by decide

theorem allCellsList_length : allCellsList.length = 81 := by decide

theorem mem_neighborsList {c d : Cell} : d ∈ neighborsList c ↔ neighbor_spec c d := by
  simp only [neighborsList, List.mem_filter, mem_allCellsList, true_and, decide_eq_true_eq,
    neighbor_spec, ne_eq, Prod.ext_iff]
  constructor
  · rintro (⟨h1, h2⟩ | ⟨h1, h2⟩ | ⟨h1, h2, h3⟩)
    · exact ⟨fun h => h2 h.2, Or.inl h1⟩
    · exact ⟨fun h => h1 h.1, Or.inr (Or.inl h2)⟩
    · exact ⟨h3, Or.inr (Or.inr ⟨h1, h2⟩)⟩
  · rintro ⟨hne, (h | h | h)⟩
    · exact Or.inl ⟨h, fun h2 => hne ⟨h, h2⟩⟩
    · by_cases h1 : d.1 = c.1
      · exact Or.inl ⟨h1, fun h2 => hne ⟨h1, h2⟩⟩
      · exact Or.inr (Or.inl ⟨h1, h⟩)
    · exact Or.inr (Or.inr ⟨h.1, h.2, hne⟩)

theorem neighborsList_length (c : Cell) : (neighborsList c).length = 20 := by
  revert c; decide

theorem neighborsList_nodup (c : Cell) : (neighborsList c).Nodup :=
  allCellsList_nodup.filter _

theorem mem_initial_queue {p : Cell × Cell} :
    p ∈ initial_queue ↔ neighbor_spec p.1 p.2 := by
  obtain ⟨a, b⟩ := p
  simp only [initial_queue, List.mem_flatMap, List.mem_map, mem_allCellsList, true_and]
  constructor
  · rintro ⟨xi, xj, hxj, he⟩
    obtain ⟨rfl, rfl⟩ := Prod.mk.injEq .. ▸ he
    exact mem_neighborsList.mp hxj
  · intro h
    exact ⟨a, b, mem_neighborsList.mpr h, rfl⟩

theorem mem_enqueue_arcs {xi xj : Cell} {p : Cell × Cell} :
    p ∈ enqueue_arcs xi xj ↔ p.2 = xi ∧ neighbor_spec xi p.1 ∧ p.1 ≠ xj := by
  obtain ⟨a, b⟩ := p
  simp only [enqueue_arcs, List.mem_map, List.mem_filter, decide_eq_true_eq]
  constructor
  · rintro ⟨xk, ⟨hk, hne⟩, he⟩
    obtain ⟨rfl, rfl⟩ := Prod.mk.injEq .. ▸ he
    exact ⟨rfl, mem_neighborsList.mp hk, hne⟩
  · rintro ⟨rfl, hk, hne⟩
    exact ⟨a, ⟨mem_neighborsList.mpr hk, hne⟩, rfl⟩

theorem enqueue_arcs_length_le (xi xj : Cell) : (enqueue_arcs xi xj).length ≤ 20 := by
  calc (enqueue_arcs xi xj).length
      = ((neighborsList xi).filter fun xk => xk ≠ xj).length := List.length_map ..
    _ ≤ (neighborsList xi).length := List.length_filter_le ..
    _ = 20 := neighborsList_length xi

/-! ### Facts about `revise` -/

theorem revise_snd_apply (d : Domains) (xi xj : Cell) :
    (revise d xi xj).2 xi = (d xi).filter fun x => ∃ y ∈ d xj, constraint_satisfied x y = true := by
  simp [revise]

theorem revise_mem {d : Domains} {xi xj : Cell} {x : ℕ} :
    x ∈ (revise d xi xj).2 xi ↔ x ∈ d xi ∧ ∃ y ∈ d xj, x ≠ y := by
  simp [revise_snd_apply, Finset.mem_filter, constraint_satisfied, bne_iff_ne]

theorem revise_apply_ne {d : Domains} {xi xj c : Cell} (h : c ≠ xi) :
    (revise d xi xj).2 c = d c := by
  simp [revise, Function.update_noteq h]

theorem revise_subset (d : Domains) (xi xj c : Cell) : (revise d xi xj).2 c ⊆ d c := by
  by_cases h : c = xi
  · subst h
    rw [revise_snd_apply]
    exact Finset.filter_subset _ _
  · rw [revise_apply_ne h]

theorem revise_true_iff {d : Domains} {xi xj : Cell} :
    (revise d xi xj).1 = true ↔ (revise d xi xj).2 xi ≠ d xi := by
  rw [revise_snd_apply]
  simp [revise]

theorem revise_false_domains {d : Domains} {xi xj : Cell}
    (h : (revise d xi xj).1 = false) : (revise d xi xj).2 xi = d xi := by
  rw [revise_snd_apply]
  simpa [revise] using h

theorem revise_true_card {d : Domains} {xi xj : Cell} (h : (revise d xi xj).1 = true) :
    ((revise d xi xj).2 xi).card < (d xi).card := by
  refine Finset.card_lt_card ?_
  rw [Finset.ssubset_iff_subset_ne]
  exact ⟨revise_subset d xi xj xi, revise_true_iff.mp h⟩

/-- A successful revision pinpoints a removed value `x`, and removal means
`xj`'s domain is contained in `{x}` (the constraint is plain inequality). -/
theorem revise_true_removed {d : Domains} {xi xj : Cell} (h : (revise d xi xj).1 = true) :
    ∃ x ∈ d xi, x ∉ (revise d xi xj).2 xi ∧ d xj ⊆ {x} := by
  have hsub := revise_subset d xi xj xi
  have hne := revise_true_iff.mp h
  obtain ⟨x, hx, hxn⟩ := Finset.exists_of_ssubset (lt_of_le_of_ne hsub hne)
  refine ⟨x, hx, hxn, fun y hy => Finset.mem_singleton.mpr ?_⟩
  by_contra hne'
  exact hxn (revise_mem.mpr ⟨hx, y, hy, fun he => hne' (he ▸ rfl)⟩)

theorem revise_false_of_arcCons {d : Domains} {xi xj : Cell} (h : arcCons d xi xj) :
    (revise d xi xj).1 = false := by
  by_contra hne
  have ht : (revise d xi xj).1 = true := by
    cases hb : (revise d xi xj).1
    · exact absurd hb hne
    · rfl
  obtain ⟨x, hx, hxn, _⟩ := revise_true_removed ht
  obtain ⟨y, hy, hxy⟩ := h x hx
  exact hxn (revise_mem.mpr ⟨hx, y, hy, hxy⟩)

theorem arcCons_of_revise {d : Domains} {xi xj : Cell} (hne : xj ≠ xi) :
    arcCons (revise d xi xj).2 xi xj := by
  intro x hx
  obtain ⟨-, y, hy, hxy⟩ := revise_mem.mp hx
  exact ⟨y, by rwa [revise_apply_ne hne], hxy⟩

theorem arcCons_mono {d d' : Domains} {xi xj : Cell} (hi : d' xi ⊆ d xi) (hj : d' xj = d xj)
    (h : arcCons d xi xj) : arcCons d' xi xj := by
  intro x hx
  rw [hj]
  exact h x (hi hx)

/-! ### The AC-3 step machine: invariants -/

theorem totalSize_update_lt {d : Domains} {xi : Cell} {s : Finset ℕ}
    (h : s.card < (d xi).card) : totalSize (Function.update d xi s) < totalSize d := by
  have h1 : totalSize (Function.update d xi s)
      = (∑ c ∈ Finset.univ.erase xi, (Function.update d xi s c).card) + s.card := by
    rw [totalSize, ← Finset.sum_erase_add _ _ (Finset.mem_univ xi), Function.update_same]
  have h2 : totalSize d = (∑ c ∈ Finset.univ.erase xi, (d c).card) + (d xi).card :=
    (Finset.sum_erase_add _ _ (Finset.mem_univ xi)).symm
  have h3 : ∑ c ∈ Finset.univ.erase xi, (Function.update d xi s c).card
      = ∑ c ∈ Finset.univ.erase xi, (d c).card :=
    Finset.sum_congr rfl fun c hc => by rw [Function.update_noteq (Finset.ne_of_mem_erase hc)]
  rw [h1, h2, h3]
  exact Nat.add_lt_add_left h _

theorem totalSize_revise_lt {d : Domains} {xi xj : Cell}
    (h : (revise d xi xj).1 = true) : totalSize (revise d xi xj).2 < totalSize d := by
  have hcard := revise_true_card h
  rw [revise_snd_apply] at hcard
  exact totalSize_update_lt hcard

theorem card_initialize_domains (g : Grid) (c : Cell) :
    ((initialize_domains g) c).card ≤ 9 := by
  unfold initialize_domains
  split
  · simp
  · simp

theorem totalSize_initialize_domains (g : Grid) : totalSize (initialize_domains g) ≤ 729 := by
  calc totalSize (initialize_domains g) ≤ ∑ _c : Cell, 9 :=
        Finset.sum_le_sum fun c _ => card_initialize_domains g c
    _ = 729 := by simp [Finset.card_univ]

theorem initial_queue_length : initial_queue.length = 1620 := by decide

/-- Complete case analysis of one iteration of the `ac3` loop. -/
theorem ac3_step_char (s : AC3State) :
    (∃ b, s.result = some b ∧ ac3_step s = s) ∨
    (s.result = none ∧ s.queue = [] ∧ ac3_step s = { s with result := some true }) ∨
    (∃ xi xj rest, s.result = none ∧ s.queue = (xi, xj) :: rest ∧
      (revise s.domains xi xj).1 = true ∧ (revise s.domains xi xj).2 xi = ∅ ∧
      ac3_step s = ⟨rest, (revise s.domains xi xj).2,
        s.trace ++ [s.queue.length], some false⟩) ∨
    (∃ xi xj rest, s.result = none ∧ s.queue = (xi, xj) :: rest ∧
      (revise s.domains xi xj).1 = true ∧ (revise s.domains xi xj).2 xi ≠ ∅ ∧
      ac3_step s = ⟨rest ++ enqueue_arcs xi xj, (revise s.domains xi xj).2,
        s.trace ++ [s.queue.length], none⟩) ∨
    (∃ xi xj rest, s.result = none ∧ s.queue = (xi, xj) :: rest ∧
      (revise s.domains xi xj).1 = false ∧
      ac3_step s = ⟨rest, s.domains, s.trace ++ [s.queue.length], none⟩) := by
  obtain ⟨q, d, tr, res⟩ := s
  cases res with
  | some b => exact Or.inl ⟨b, rfl, rfl⟩
  | none =>
    cases q with
    | nil => exact Or.inr (Or.inl ⟨rfl, rfl, rfl⟩)
    | cons p rest =>
      obtain ⟨xi, xj⟩ := p
      by_cases hr : (revise d xi xj).1
      · by_cases he : (revise d xi xj).2 xi = ∅
        · refine Or.inr (Or.inr (Or.inl ⟨xi, xj, rest, rfl, rfl, hr, he, ?_⟩))
          simp only [ac3_step, hr, he, if_true]
        · refine Or.inr (Or.inr (Or.inr (Or.inl ⟨xi, xj, rest, rfl, rfl, hr, he, ?_⟩)))
          simp only [ac3_step, hr, he, if_true, if_false]
      · refine Or.inr (Or.inr (Or.inr (Or.inr ⟨xi, xj, rest, rfl, rfl, by simpa using hr, ?_⟩)))
        simp only [ac3_step]
        rw [if_neg (by simpa using hr)]

theorem ac3_step_done {s : AC3State} {b : Bool} (h : s.result = some b) : ac3_step s = s := by
  unfold ac3_step
  rw [h]

theorem ac3_iterate_done {s : AC3State} {b : Bool} (h : s.result = some b) (n : ℕ) :
    ac3_step^[n] s = s := by
  induction n with
  | zero => rfl
  | succ n ih => rw [Function.iterate_succ_apply, ac3_step_done h, ih]

theorem ac3_invariant (P : AC3State → Prop) (hstep : ∀ s, P s → P (ac3_step s))
    {s : AC3State} (h : P s) (n : ℕ) : P (ac3_step^[n] s) := by
  induction n with
  | zero => exact h
  | succ n ih => rw [Function.iterate_succ_apply']; exact hstep _ ih

theorem arcCons_of_revise_false {d : Domains} {xi xj : Cell}
    (h : (revise d xi xj).1 = false) : arcCons d xi xj := by
  intro x hx
  have hd := revise_false_domains h
  rw [← hd] at hx
  exact (revise_mem.mp hx).2

/-- Each step only ever shrinks domains. -/
theorem ac3_step_domains_subset (s : AC3State) (c : Cell) :
    (ac3_step s).domains c ⊆ s.domains c := by
  rcases ac3_step_char s with ⟨b, _, he⟩ | ⟨_, _, he⟩ | ⟨xi, xj, rest, _, _, _, _, he⟩ |
    ⟨xi, xj, rest, _, _, _, _, he⟩ | ⟨xi, xj, rest, _, _, _, he⟩ <;> rw [he] <;>
    first
      | exact Finset.Subset.refl _
      | exact revise_subset _ _ _ _

/-- Along any run, the domains at a later step are contained in the domains at
any earlier step. -/
theorem ac3_iterate_domains_subset (s : AC3State) (n k : ℕ) (c : Cell) :
    (ac3_step^[n + k] s).domains c ⊆ (ac3_step^[n] s).domains c := by
  induction k with
  | zero => exact Finset.Subset.refl _
  | succ k ih =>
    have : n + (k + 1) = (n + k) + 1 := rfl
    rw [this, Function.iterate_succ_apply']
    exact (ac3_step_domains_subset _ c).trans ih

theorem queueArcs_step {s : AC3State} (h : QueueArcs s) : QueueArcs (ac3_step s) := by
  rcases ac3_step_char s with ⟨b, _, he⟩ | ⟨_, hq, he⟩ | ⟨xi, xj, rest, _, hq, _, _, he⟩ |
    ⟨xi, xj, rest, _, hq, _, _, he⟩ | ⟨xi, xj, rest, _, hq, _, he⟩ <;> rw [he]
  · exact h
  · exact h
  · exact fun p hp => h p (by rw [hq]; exact List.mem_cons_of_mem _ hp)
  · intro p hp
    rcases List.mem_append.mp hp with hp | hp
    · exact h p (by rw [hq]; exact List.mem_cons_of_mem _ hp)
    · obtain ⟨h2, hn, _⟩ := mem_enqueue_arcs.mp hp
      rw [h2]
      exact neighbor_spec_symm hn
  · exact fun p hp => h p (by rw [hq]; exact List.mem_cons_of_mem _ hp)

theorem queueBound_step {s : AC3State} (h : QueueBound s) : QueueBound (ac3_step s) := by
  unfold QueueBound at *
  rcases ac3_step_char s with ⟨b, _, he⟩ | ⟨_, hq, he⟩ | ⟨xi, xj, rest, _, hq, hr, _, he⟩ |
    ⟨xi, xj, rest, _, hq, hr, _, he⟩ | ⟨xi, xj, rest, _, hq, _, he⟩ <;> rw [he] <;>
    try dsimp only
  · exact h
  · exact h
  · have hlen : s.queue.length = rest.length + 1 := by rw [hq]; rfl
    have hts : totalSize (revise s.domains xi xj).2 < totalSize s.domains :=
      totalSize_revise_lt hr
    omega
  · have hlen : s.queue.length = rest.length + 1 := by rw [hq]; rfl
    have hts : totalSize (revise s.domains xi xj).2 < totalSize s.domains :=
      totalSize_revise_lt hr
    have hel := enqueue_arcs_length_le xi xj
    have happ : (rest ++ enqueue_arcs xi xj).length
        = rest.length + (enqueue_arcs xi xj).length := List.length_append ..
    omega
  · have hlen : s.queue.length = rest.length + 1 := by rw [hq]; rfl
    omega

/-- With `n` at least the resource measure, `n + 1` iterations reach a
returned result. -/
theorem ac3_fuel_sufficient :
    ∀ (n : ℕ) (s : AC3State), s.queue.length + 20 * totalSize s.domains ≤ n →
      (ac3_step^[n + 1] s).result.isSome := by
  intro n
  induction n with
  | zero =>
    intro s h
    have hq : s.queue = [] := List.length_eq_zero.mp (by omega)
    rcases ac3_step_char s with ⟨b, hres, he⟩ | ⟨_, _, he⟩ | ⟨xi, xj, rest, _, hq', _, _, _⟩ |
      ⟨xi, xj, rest, _, hq', _, _, _⟩ | ⟨xi, xj, rest, _, hq', _, _⟩
    · rw [Function.iterate_one, he, hres]; rfl
    · rw [Function.iterate_one, he]; rfl
    · rw [hq] at hq'; exact absurd hq' (List.noConfusion)
    · rw [hq] at hq'; exact absurd hq' (List.noConfusion)
    · rw [hq] at hq'; exact absurd hq' (List.noConfusion)
  | succ n ih =>
    intro s h
    rcases ac3_step_char s with ⟨b, hres, he⟩ | ⟨_, _, he⟩ | ⟨xi, xj, rest, _, hq, hr, _, he⟩ |
      ⟨xi, xj, rest, _, hq, hr, _, he⟩ | ⟨xi, xj, rest, _, hq, _, he⟩
    · rw [ac3_iterate_done hres, hres]; rfl
    · rw [Function.iterate_succ_apply, he]
      have habs : ∀ k, ac3_step^[k] ({ s with result := some true }) =
          { s with result := some true } := fun k => ac3_iterate_done rfl k
      rw [habs]
      rfl
    · rw [Function.iterate_succ_apply, he]
      have habs : ∀ k, ac3_step^[k] (⟨rest, (revise s.domains xi xj).2,
          s.trace ++ [s.queue.length], some false⟩ : AC3State) =
          ⟨rest, (revise s.domains xi xj).2, s.trace ++ [s.queue.length], some false⟩ :=
        fun k => ac3_iterate_done rfl k
      rw [habs]
      rfl
    · rw [Function.iterate_succ_apply, he]
      refine ih _ ?_
      dsimp only
      have hlen : s.queue.length = rest.length + 1 := by rw [hq]; rfl
      have hts : totalSize (revise s.domains xi xj).2 < totalSize s.domains :=
        totalSize_revise_lt hr
      have hel := enqueue_arcs_length_le xi xj
      have happ : (rest ++ enqueue_arcs xi xj).length
          = rest.length + (enqueue_arcs xi xj).length := List.length_append ..
      omega
    · rw [Function.iterate_succ_apply, he]
      refine ih _ ?_
      dsimp only
      have hlen : s.queue.length = rest.length + 1 := by rw [hq]; rfl
      omega

theorem nonemptyDoms_step {s : AC3State} (h : NonemptyDoms s) : NonemptyDoms (ac3_step s) := by
  unfold NonemptyDoms at *
  rcases ac3_step_char s with ⟨b, hres, he⟩ | ⟨hres, _, he⟩ | ⟨xi, xj, rest, _, _, _, _, he⟩ |
     ⟨xi, xj, rest, hres, _, _, hne, he⟩ | ⟨xi, xj, rest, hres, _, _, he⟩ <;> rw [he] <;> try dsimp only
  · exact h
  · rcases h with h | h
    · exact absurd (hres ▸ h) (by simp)
    · exact Or.inr h
  · exact Or.inl rfl
  · rcases h with h | h
    · exact absurd (hres ▸ h) (by simp)
    · refine Or.inr fun c => ?_
      by_cases hc : c = xi
      · rw [hc]; exact hne
      · rw [revise_apply_ne hc]; exact h c
  · rcases h with h | h
    · exact absurd (hres ▸ h) (by simp)
    · exact Or.inr h

theorem trueNil_step {s : AC3State} (h : TrueNil s) : TrueNil (ac3_step s) := by
  unfold TrueNil at *
  rcases ac3_step_char s with ⟨b, _, he⟩ | ⟨_, hq, he⟩ | ⟨xi, xj, rest, _, _, _, _, he⟩ |
    ⟨xi, xj, rest, _, _, _, _, he⟩ | ⟨xi, xj, rest, _, _, _, he⟩ <;> rw [he] <;> try dsimp only
  · exact h
  · exact fun _ => hq
  · exact fun hfalse => absurd hfalse (by simp)
  · exact fun hfalse => absurd hfalse (by simp)
  · exact fun hfalse => absurd hfalse (by simp)

/-- Preservation of the arc-consistency invariant across one loop iteration.
The subtle case is the popped arc's reverse `(xj, xi)` after a successful
revision: any removed value `x` had `domains[xj] ⊆ {x}`, and `x` is no longer
in `domains[xi]`, so every value of `domains[xj]` keeps a differing support. -/
theorem aci_step {s : AC3State} (_hqa : QueueArcs s) (h : ACIprop s) : ACIprop (ac3_step s) := by
  unfold ACIprop at *
  rcases ac3_step_char s with ⟨b, hres, he⟩ | ⟨hres, hq, he⟩ |
    ⟨xi, xj, rest, hres, hq, hr, hemp, he⟩ | ⟨xi, xj, rest, hres, hq, hr, hne, he⟩ |
    ⟨xi, xj, rest, hres, hq, hr, he⟩ <;> rw [he] <;> try dsimp only
  · exact h
  · rcases h with h | h
    · exact absurd (hres ▸ h) (by simp)
    · exact Or.inr h
  · exact Or.inl rfl
  · rcases h with h | h
    · exact absurd (hres ▸ h) (by simp)
    · refine Or.inr fun a b hn => ?_
      rcases h a b hn with hmem | hcons
      · rw [hq] at hmem
        rcases List.mem_cons.mp hmem with heq | hmem
        · obtain ⟨rfl, rfl⟩ : a = xi ∧ b = xj := Prod.mk.injEq .. ▸ heq
          exact Or.inr (arcCons_of_revise (neighbor_spec_ne hn))
        · exact Or.inl (List.mem_append_left _ hmem)
      · by_cases hbxi : b = xi
        · subst hbxi
          by_cases haxj : a = xj
          · subst haxj
            refine Or.inr fun u hu => ?_
            have hia : b ≠ a := neighbor_spec_ne hn
            rw [revise_apply_ne (fun hax => hia hax.symm)] at hu
            obtain ⟨x, hxmem, hxnot, hsub⟩ := revise_true_removed hr
            have hux : u = x := Finset.mem_singleton.mp (hsub hu)
            obtain ⟨v, hv⟩ := Finset.nonempty_iff_ne_empty.mpr hne
            refine ⟨v, hv, ?_⟩
            rw [hux]
            intro hxv
            rw [hxv] at hxnot
            exact hxnot hv
          · refine Or.inl (List.mem_append_right _ (mem_enqueue_arcs.mpr ⟨rfl, ?_, haxj⟩))
            exact neighbor_spec_symm hn
        · exact Or.inr (arcCons_mono (revise_subset _ _ _ _) (revise_apply_ne hbxi) hcons)
  · rcases h with h | h
    · exact absurd (hres ▸ h) (by simp)
    · refine Or.inr fun a b hn => ?_
      rcases h a b hn with hmem | hcons
      · rw [hq] at hmem
        rcases List.mem_cons.mp hmem with heq | hmem
        · obtain ⟨rfl, rfl⟩ : a = xi ∧ b = xj := Prod.mk.injEq .. ▸ heq
          exact Or.inr (arcCons_of_revise_false hr)
        · exact Or.inl hmem
      · exact Or.inr hcons

/-- Any total solution whose values respect the inequality constraints on
neighbor arcs survives every revision, so the loop can never fail on it. -/
theorem solPres_step {sol : Cell → ℕ} (hsol : ∀ a b : Cell, neighbor_spec a b → sol a ≠ sol b)
    {s : AC3State} (hqa : QueueArcs s)
    (h : s.result ≠ some false ∧ ∀ c, sol c ∈ s.domains c) :
    (ac3_step s).result ≠ some false ∧ ∀ c, sol c ∈ (ac3_step s).domains c := by
  obtain ⟨h1, h2⟩ := h
  rcases ac3_step_char s with ⟨b, hres, he⟩ | ⟨hres, hq, he⟩ |
    ⟨xi, xj, rest, hres, hq, hr, hemp, he⟩ | ⟨xi, xj, rest, hres, hq, hr, hne, he⟩ |
    ⟨xi, xj, rest, hres, hq, hr, he⟩ <;> rw [he] <;> try dsimp only
  · exact ⟨h1, h2⟩
  · exact ⟨by simp, h2⟩
  · exfalso
    have hnb : neighbor_spec xi xj := hqa (xi, xj) (by rw [hq]; exact List.mem_cons_self _ _)
    have hmem : sol xi ∈ (revise s.domains xi xj).2 xi :=
      revise_mem.mpr ⟨h2 xi, sol xj, h2 xj, hsol xi xj hnb⟩
    rw [hemp] at hmem
    exact absurd hmem (Finset.not_mem_empty _)
  · refine ⟨by simp, fun c => ?_⟩
    by_cases hc : c = xi
    · subst hc
      have hnb : neighbor_spec c xj := hqa (c, xj) (by rw [hq]; exact List.mem_cons_self _ _)
      exact revise_mem.mpr ⟨h2 c, sol xj, h2 xj, hsol c xj hnb⟩
    · rw [revise_apply_ne hc]; exact h2 c
  · exact ⟨by simp, h2⟩

/-! ### Whole-run corollaries -/

theorem ac3_init_result (d : Domains) : (ac3_init d).result = none := rfl

theorem ac3_run_def (d : Domains) : ac3_run d = ac3_step^[ac3_fuel] (ac3_init d) := rfl

attribute [irreducible] ac3_run

theorem ac3_run_isSome {d : Domains} (h : totalSize d ≤ 729) :
    (ac3_run d).result.isSome := by
  rw [ac3_run_def]
  have hfuel : ac3_fuel = 16200 + 1 := rfl
  rw [hfuel]
  refine ac3_fuel_sufficient 16200 (ac3_init d) ?_
  show initial_queue.length + 20 * totalSize d ≤ 16200
  rw [initial_queue_length]
  omega

theorem ac3_reach_queueArcs (d : Domains) (n : ℕ) :
    QueueArcs (ac3_step^[n] (ac3_init d)) := by
  refine ac3_invariant QueueArcs (fun _ hs => queueArcs_step hs) ?_ n
  intro p hp
  exact mem_initial_queue.mp hp

theorem ac3_reach_aci (d : Domains) (n : ℕ) :
    ACIprop (ac3_step^[n] (ac3_init d)) := by
  refine (ac3_invariant (fun s => QueueArcs s ∧ ACIprop s)
    (fun _ hs => ⟨queueArcs_step hs.1, aci_step hs.1 hs.2⟩) ⟨?_, ?_⟩ n).2
  · intro p hp
    exact mem_initial_queue.mp hp
  · exact Or.inr fun a b hn => Or.inl (mem_initial_queue.mpr hn)

theorem ac3_reach_trueNil (d : Domains) (n : ℕ) :
    TrueNil (ac3_step^[n] (ac3_init d)) := by
  refine ac3_invariant TrueNil (fun _ hs => trueNil_step hs) ?_ n
  intro hh
  rw [ac3_init_result] at hh
  exact absurd hh (by simp)

theorem ac3_reach_queueBound (d : Domains) (h : totalSize d ≤ 729) (n : ℕ) :
    QueueBound (ac3_step^[n] (ac3_init d)) := by
  refine ac3_invariant QueueBound (fun _ hs => queueBound_step hs) ?_ n
  show initial_queue.length + 20 * totalSize d ≤ 16200
  rw [initial_queue_length]
  omega

theorem ac3_iterate_domains_subset_init (s : AC3State) (k : ℕ) (c : Cell) :
    (ac3_step^[k] s).domains c ⊆ s.domains c := by
  induction k with
  | zero => exact Finset.Subset.refl _
  | succ k ih =>
    rw [Function.iterate_succ_apply']
    exact (ac3_step_domains_subset _ c).trans ih

theorem ac3_run_domains_subset (d : Domains) (c : Cell) :
    (ac3_run d).domains c ⊆ d c := by
  rw [ac3_run_def]
  exact ac3_iterate_domains_subset_init (ac3_init d) ac3_fuel c

/-- At a successful return every neighbor arc is consistent. -/
theorem ac3_run_arcCons {d : Domains} (h : (ac3_run d).result = some true) :
    ∀ a b : Cell, neighbor_spec a b → arcCons (ac3_run d).domains a b := by
  intro a b hn
  have haci : ACIprop (ac3_run d) := by
    rw [ac3_run_def]
    exact ac3_reach_aci d ac3_fuel
  have htn : TrueNil (ac3_run d) := by
    rw [ac3_run_def]
    exact ac3_reach_trueNil d ac3_fuel
  rcases haci with hfalse | haci
  · rw [h] at hfalse
    exact absurd hfalse (by simp)
  · rcases haci a b hn with hmem | hcons
    · rw [htn h] at hmem
      exact absurd hmem (List.not_mem_nil _)
    · exact hcons

/-- At any non-failed state of a run started from nonempty domains, all
domains are still nonempty. -/
theorem ac3_run_nonempty {d : Domains} (h0 : ∀ c, d c ≠ ∅)
    (h : (ac3_run d).result ≠ some false) : ∀ c, (ac3_run d).domains c ≠ ∅ := by
  have hne : NonemptyDoms (ac3_run d) := by
    rw [ac3_run_def]
    exact ac3_invariant NonemptyDoms (fun _ hs => nonemptyDoms_step hs) (Or.inr h0) ac3_fuel
  rcases hne with hne | hne
  · exact absurd hne h
  · exact hne

/-- A total constraint-respecting solution inside the initial domains is
still inside the domains at the end of the run, and the run has not failed. -/
theorem ac3_run_solPres {d : Domains} {sol : Cell → ℕ}
    (hsol : ∀ a b : Cell, neighbor_spec a b → sol a ≠ sol b)
    (h0 : ∀ c, sol c ∈ d c) :
    (ac3_run d).result ≠ some false ∧ ∀ c, sol c ∈ (ac3_run d).domains c := by
  rw [ac3_run_def]
  refine (ac3_invariant
    (fun s => QueueArcs s ∧ (s.result ≠ some false ∧ ∀ c, sol c ∈ s.domains c))
    (fun _ hs => ⟨queueArcs_step hs.1, solPres_step hsol hs.1 hs.2⟩) ⟨?_, ?_, h0⟩ ac3_fuel).2
  · intro p hp
    exact mem_initial_queue.mp hp
  · rw [ac3_init_result]
    simp

/-! ### The assignment dictionary -/

theorem alookup_cons_self {a : Assignment} {c : Cell} {v : ℕ} :
    alookup ((c, v) :: a) c = some v := by
  simp [alookup]

theorem alookup_cons_ne {a : Assignment} {c' c : Cell} {v : ℕ} (h : c' ≠ c) :
    alookup ((c', v) :: a) c = alookup a c := by
  simp [alookup, h]

theorem alookup_mem {a : Assignment} {c : Cell} {v : ℕ} (h : alookup a c = some v) :
    (c, v) ∈ a := by
  induction a with
  | nil => simp [alookup] at h
  | cons p rest ih =>
    obtain ⟨c', v'⟩ := p
    by_cases hc : c' = c
    · subst hc
      rw [alookup_cons_self] at h
      obtain rfl := Option.some.injEq .. ▸ h
      exact List.mem_cons_self _ _
    · rw [alookup_cons_ne hc] at h
      exact List.mem_cons_of_mem _ (ih h)

theorem alookup_eq_none_iff {a : Assignment} {c : Cell} :
    alookup a c = none ↔ c ∉ a.map Prod.fst := by
  induction a with
  | nil => simp [alookup]
  | cons p rest ih =>
    obtain ⟨c', v'⟩ := p
    by_cases hc : c' = c
    · subst hc
      simp [alookup_cons_self]
    · rw [alookup_cons_ne hc]
      simp only [List.map_cons, List.mem_cons, ih]
      constructor
      · rintro h (he | hm)
        · exact hc he.symm
        · exact h hm
      · intro h hm
        exact h (Or.inr hm)

theorem alookup_isSome_iff {a : Assignment} {c : Cell} :
    (alookup a c).isSome ↔ c ∈ a.map Prod.fst := by
  constructor
  · intro hs
    rcases Option.isSome_iff_exists.mp hs with ⟨v, hv⟩
    exact List.mem_map_of_mem Prod.fst (alookup_mem hv)
  · intro hm
    by_contra hns
    rw [Option.not_isSome_iff_eq_none] at hns
    exact (alookup_eq_none_iff.mp hns) hm

theorem alookup_of_mem {a : Assignment} (hnd : NodupKeys a) {p : Cell × ℕ} (hp : p ∈ a) :
    alookup a p.1 = some p.2 := by
  induction a with
  | nil => exact absurd hp (List.not_mem_nil _)
  | cons q rest ih =>
    obtain ⟨hq, hrest⟩ := List.nodup_cons.mp hnd
    rcases List.mem_cons.mp hp with rfl | hp
    · exact alookup_cons_self
    · have hne : q.1 ≠ p.1 := by
        intro he
        exact hq (he ▸ List.mem_map_of_mem Prod.fst hp)
      rw [alookup_cons_ne hne]
      exact ih hrest hp

theorem nodupKeys_length_le (a : Assignment) (h : NodupKeys a) : a.length ≤ 81 := by
  have h1 : (a.map Prod.fst).length ≤ Fintype.card Cell := List.Nodup.length_le_card h
  rw [List.length_map] at h1
  simpa using h1

theorem nodupKeys_cons {a : Assignment} {c : Cell} {v : ℕ} (hnd : NodupKeys a)
    (hc : alookup a c = none) : NodupKeys ((c, v) :: a) := by
  unfold NodupKeys at *
  rw [List.map_cons, List.nodup_cons]
  exact ⟨alookup_eq_none_iff.mp hc, hnd⟩

/-- A duplicate-free assignment of size 81 covers every cell. -/
theorem alookup_total {a : Assignment} (hnd : NodupKeys a) (hlen : a.length = 81) (c : Cell) :
    (alookup a c).isSome := by
  rw [alookup_isSome_iff]
  have hcard : (a.map Prod.fst).toFinset.card = 81 := by
    rw [List.toFinset_card_of_nodup hnd, List.length_map, hlen]
  have huniv : (a.map Prod.fst).toFinset = (univ : Finset Cell) := by
    refine Finset.eq_univ_of_card _ ?_
    rw [hcard]
    simp [Finset.card_univ]
  have : c ∈ (a.map Prod.fst).toFinset := by
    rw [huniv]
    exact Finset.mem_univ c
  exact List.mem_toFinset.mp this

/-! ### The search helpers -/

theorem select_unassigned_spec {d : Domains} {a : Assignment} {var : Cell}
    (h : select_unassigned_variable d a = some var) : alookup a var = none := by
  have hm := List.argmin_mem h
  have := (List.mem_filter.mp hm).2
  simpa [Option.isNone_iff_eq_none] using this

theorem select_unassigned_isSome {d : Domains} {a : Assignment}
    (hlen : a.length < 81) :
    ∃ var, select_unassigned_variable d a = some var := by
  rcases h : select_unassigned_variable d a with _ | var
  · exfalso
    have hempty : (allCellsList.filter fun v => (alookup a v).isNone) = [] :=
      List.argmin_eq_none.mp h
    have hall : ∀ c : Cell, alookup a c ≠ none := by
      intro c hc
      have hmem : c ∈ allCellsList.filter fun v => (alookup a v).isNone :=
        List.mem_filter.mpr ⟨mem_allCellsList c, by simp [hc]⟩
      rw [hempty] at hmem
      exact absurd hmem (List.not_mem_nil _)
    have hsub : (univ : Finset Cell) ⊆ (a.map Prod.fst).toFinset := by
      intro c _
      rw [List.mem_toFinset, ← alookup_isSome_iff]
      exact Option.ne_none_iff_isSome.mp (hall c)
    have hge : 81 ≤ (a.map Prod.fst).toFinset.card := by
      have := Finset.card_le_card hsub
      simpa [Finset.card_univ] using this
    have hle : (a.map Prod.fst).toFinset.card ≤ a.length := by
      calc (a.map Prod.fst).toFinset.card ≤ (a.map Prod.fst).length :=
            (a.map Prod.fst).toFinset_card_le
        _ = a.length := List.length_map ..
    omega
  · exact ⟨var, rfl⟩

theorem mem_least_constraining_values {d : Domains} {var : Cell} {a : Assignment} {v : ℕ} :
    v ∈ least_constraining_values d var a ↔ v ∈ d var := by
  unfold least_constraining_values
  rw [(List.mergeSort_perm _ _).mem_iff, Finset.mem_sort]

theorem is_consistent_spec {var : Cell} {value : ℕ} {a : Assignment} :
    is_consistent var value a = true ↔
      ∀ n : Cell, neighbor_spec var n → ∀ w, alookup a n = some w → w ≠ value := by
  unfold is_consistent
  rw [List.all_eq_true]
  constructor
  · intro h n hn w hw
    have := h n (mem_neighborsList.mpr hn)
    rw [hw] at this
    simpa using this
  · intro h n hn
    rcases hw : alookup a n with _ | w
    · simp
    · have := h n (mem_neighborsList.mp hn) w hw
      simpa using this

/-! ### The backtracking engine -/

theorem tryValues_nil {bt : Assignment → Option (Option Assignment)} {var : Cell}
    {a : Assignment} : tryValues bt var a [] = some none := rfl

theorem tryValues_cons {bt : Assignment → Option (Option Assignment)} {var : Cell}
    {a : Assignment} {value : ℕ} {rest : List ℕ} :
    tryValues bt var a (value :: rest) =
      if is_consistent var value a then
        match bt ((var, value) :: a) with
        | none => none
        | some (some r) => some (some r)
        | some none => tryValues bt var a rest
      else tryValues bt var a rest := rfl

theorem backtrack_zero {d : Domains} {a : Assignment} : backtrack d 0 a = none := rfl

theorem backtrack_succ {d : Domains} {fuel : ℕ} {a : Assignment} :
    backtrack d (fuel + 1) a =
      if a.length = 81 then some (some a)
      else
        match select_unassigned_variable d a with
        | none => some none
        | some var => tryValues (backtrack d fuel) var a (least_constraining_values d var a) := rfl

theorem tryValues_eq_some {bt : Assignment → Option (Option Assignment)} {var : Cell}
    {a r : Assignment} (values : List ℕ)
    (h : tryValues bt var a values = some (some r)) :
    ∃ value ∈ values, is_consistent var value a = true ∧
      bt ((var, value) :: a) = some (some r) := by
  induction values with
  | nil => rw [tryValues_nil] at h; cases h
  | cons value rest ih =>
    rw [tryValues_cons] at h
    by_cases hc : is_consistent var value a
    · rw [if_pos hc] at h
      rcases hb : bt ((var, value) :: a) with _ | ov
      · rw [hb] at h; cases h
      · rcases ov with _ | r'
        · rw [hb] at h
          obtain ⟨v, hv, hcv, hbv⟩ := ih h
          exact ⟨v, List.mem_cons_of_mem _ hv, hcv, hbv⟩
        · rw [hb] at h
          obtain rfl : r' = r := by cases h; rfl
          exact ⟨value, List.mem_cons_self .., hc, hb⟩
    · rw [if_neg hc] at h
      obtain ⟨v, hv, hcv, hbv⟩ := ih h
      exact ⟨v, List.mem_cons_of_mem _ hv, hcv, hbv⟩

theorem assignOK_insert {d : Domains} {a : Assignment} {var : Cell} {value : ℕ}
    (hOK : AssignOK d a) (hvar : alookup a var = none) (hval : value ∈ d var)
    (hcons : is_consistent var value a = true) : AssignOK d ((var, value) :: a) := by
  obtain ⟨hnd, hdom, hpair⟩ := hOK
  refine ⟨nodupKeys_cons hnd hvar, ?_, ?_⟩
  · intro p hp
    rcases List.mem_cons.mp hp with rfl | hp
    · exact hval
    · exact hdom p hp
  · intro p hp q hq hn
    rcases List.mem_cons.mp hp with rfl | hp <;> rcases List.mem_cons.mp hq with rfl | hq
    · exact absurd hn (neighbor_spec_irrefl _)
    · have hq2 : alookup a q.1 = some q.2 := alookup_of_mem hnd hq
      have hne := is_consistent_spec.mp hcons q.1 hn q.2 hq2
      exact fun he => hne he.symm
    · have hp2 : alookup a p.1 = some p.2 := alookup_of_mem hnd hp
      exact is_consistent_spec.mp hcons p.1 (neighbor_spec_symm hn) p.2 hp2
    · exact hpair p hp q hq hn

/-- Any assignment returned by `backtrack` satisfies the search invariant and
covers all 81 cells. -/
theorem backtrack_sound : ∀ (fuel : ℕ) (d : Domains) (a r : Assignment),
    AssignOK d a → backtrack d fuel a = some (some r) →
    AssignOK d r ∧ r.length = 81 := by
  intro fuel
  induction fuel with
  | zero =>
    intro d a r _ h
    rw [backtrack_zero] at h
    cases h
  | succ fuel ih =>
    intro d a r hOK h
    rw [backtrack_succ] at h
    by_cases hlen : a.length = 81
    · rw [if_pos hlen] at h
      obtain rfl : a = r := by cases h; rfl
      exact ⟨hOK, hlen⟩
    · rw [if_neg hlen] at h
      rcases hsel : select_unassigned_variable d a with _ | var
      · rw [hsel] at h; cases h
      · rw [hsel] at h
        obtain ⟨value, hvmem, hvcons, hbt⟩ := tryValues_eq_some _ h
        refine ih d ((var, value) :: a) r ?_ hbt
        exact assignOK_insert hOK (select_unassigned_spec hsel)
          (mem_least_constraining_values.mp hvmem) hvcons

/-- Lookup-level reformulations of the `AssignOK` fields (kept generic in the
store so that instantiations never need definitional unfolding). -/
theorem assignOK_lookup {d : Domains} {a : Assignment} (h : AssignOK d a) {c : Cell} {v : ℕ}
    (hv : alookup a c = some v) : v ∈ d c := by
  have hm := h.2.1 (c, v) (alookup_mem hv)
  simpa using hm

theorem assignOK_lookup_ne {d : Domains} {a : Assignment} (h : AssignOK d a) {x y : Cell}
    {vx vy : ℕ} (hn : neighbor_spec x y) (hx : alookup a x = some vx)
    (hy : alookup a y = some vy) : vx ≠ vy := by
  have hm := h.2.2 (x, vx) (alookup_mem hx) (y, vy) (alookup_mem hy)
  simpa using hm hn

theorem tryValues_isSome {bt : Assignment → Option (Option Assignment)} {var : Cell}
    {a : Assignment} (values : List ℕ)
    (hbt : ∀ value ∈ values, (bt ((var, value) :: a)).isSome) :
    (tryValues bt var a values).isSome := by
  induction values with
  | nil => rw [tryValues_nil]; rfl
  | cons value rest ih =>
    rw [tryValues_cons]
    by_cases hc : is_consistent var value a
    · rw [if_pos hc]
      rcases hb : bt ((var, value) :: a) with _ | ov
      · have hs := hbt value (List.mem_cons_self ..)
        rw [hb] at hs
        cases hs
      · rcases ov with _ | r
        · exact ih fun v hv => hbt v (List.mem_cons_of_mem _ hv)
        · rfl
    · rw [if_neg hc]
      exact ih fun v hv => hbt v (List.mem_cons_of_mem _ hv)

/-- With fuel exceeding the number of unassigned cells, `backtrack` always
returns (the embedding's fuel is never the reason for a `none`). -/
theorem backtrack_isSome : ∀ (fuel : ℕ) (d : Domains) (a : Assignment),
    NodupKeys a → 81 - a.length < fuel → (backtrack d fuel a).isSome := by
  intro fuel
  induction fuel with
  | zero =>
    intro d a _ h
    omega
  | succ fuel ih =>
    intro d a hnd hfuel
    rw [backtrack_succ]
    by_cases hlen : a.length = 81
    · rw [if_pos hlen]; rfl
    · rw [if_neg hlen]
      have hlt : a.length < 81 := lt_of_le_of_ne (nodupKeys_length_le a hnd) hlen
      obtain ⟨var, hsel⟩ := select_unassigned_isSome hlt
      rw [hsel]
      refine tryValues_isSome _ fun value _hv => ?_
      refine ih d ((var, value) :: a) (nodupKeys_cons hnd (select_unassigned_spec hsel)) ?_
      simp only [List.length_cons]
      omega

theorem tryValues_complete {bt : Assignment → Option (Option Assignment)} {var : Cell}
    {a : Assignment} (values : List ℕ)
    (hnone : ∀ value ∈ values, bt ((var, value) :: a) ≠ none)
    (hwit : ∃ value ∈ values, is_consistent var value a = true ∧
      ∃ r, bt ((var, value) :: a) = some (some r)) :
    ∃ r, tryValues bt var a values = some (some r) := by
  induction values with
  | nil =>
    obtain ⟨v, hv, -⟩ := hwit
    exact absurd hv (List.not_mem_nil _)
  | cons value rest ih =>
    rw [tryValues_cons]
    by_cases hc : is_consistent var value a
    · rw [if_pos hc]
      rcases hb : bt ((var, value) :: a) with _ | ov
      · exact absurd hb (hnone value (List.mem_cons_self ..))
      · rcases ov with _ | r
        · refine ih (fun v hv => hnone v (List.mem_cons_of_mem _ hv)) ?_
          obtain ⟨v, hv, hvc, r', hr'⟩ := hwit
          rcases List.mem_cons.mp hv with rfl | hv
          · rw [hb] at hr'; cases hr'
          · exact ⟨v, hv, hvc, r', hr'⟩
        · exact ⟨r, rfl⟩
    · rw [if_neg hc]
      refine ih (fun v hv => hnone v (List.mem_cons_of_mem _ hv)) ?_
      obtain ⟨v, hv, hvc, hex⟩ := hwit
      rcases List.mem_cons.mp hv with rfl | hv
      · exact absurd hvc (by simpa using hc)
      · exact ⟨v, hv, hvc, hex⟩

/-- If some total solution of the store extends the current assignment, the
search succeeds. -/
theorem backtrack_complete : ∀ (fuel : ℕ) (d : Domains) (a : Assignment) (sol : Cell → ℕ),
    SolOf d sol → Extends sol a → NodupKeys a → 81 - a.length < fuel →
    ∃ r, backtrack d fuel a = some (some r) := by
  intro fuel
  induction fuel with
  | zero =>
    intro d a sol _ _ _ h
    omega
  | succ fuel ih =>
    intro d a sol hsol hext hnd hfuel
    rw [backtrack_succ]
    by_cases hlen : a.length = 81
    · rw [if_pos hlen]
      exact ⟨a, rfl⟩
    · rw [if_neg hlen]
      have hlt : a.length < 81 := lt_of_le_of_ne (nodupKeys_length_le a hnd) hlen
      obtain ⟨var, hsel⟩ := select_unassigned_isSome hlt
      rw [hsel]
      have hvar_un : alookup a var = none := select_unassigned_spec hsel
      refine tryValues_complete _ ?_ ?_
      · intro value _hv
        have hs := backtrack_isSome fuel d ((var, value) :: a)
          (nodupKeys_cons hnd hvar_un) (by simp only [List.length_cons]; omega)
        exact Option.ne_none_iff_isSome.mpr hs
      · refine ⟨sol var, mem_least_constraining_values.mpr (hsol.1 var), ?_, ?_⟩
        · refine is_consistent_spec.mpr fun n hn w hw => ?_
          have hwsol : w = sol n := hext (n, w) (alookup_mem hw)
          rw [hwsol]
          exact fun he => (hsol.2 var n hn) he.symm
        · refine ih d ((var, sol var) :: a) sol hsol ?_ (nodupKeys_cons hnd hvar_un)
            (by simp only [List.length_cons]; omega)
          intro p hp
          rcases List.mem_cons.mp hp with rfl | hp
          · rfl
          · exact hext p hp

theorem backtracking_search_eq_some {d : Domains} {r : Assignment} :
    backtracking_search d = some r ↔ backtrack d 82 [] = some (some r) := by
  unfold backtracking_search
  rcases h : backtrack d 82 [] with _ | ov
  · simp
  · rcases ov with _ | r'
    · simp
    · simp

/-! ### Units and validity -/

theorem mem_rowCells {i : Fin 9} {c : Cell} : c ∈ rowCells i ↔ c.1 = i := by
  simp [rowCells]

theorem mem_colCells {j : Fin 9} {c : Cell} : c ∈ colCells j ↔ c.2 = j := by
  simp [colCells]

theorem mem_blockCells {b : Fin 3 × Fin 3} {c : Cell} :
    c ∈ blockCells b ↔ c.1.val / 3 = b.1.val ∧ c.2.val / 3 = b.2.val := by
  simp [blockCells]

theorem rowCells_card (i : Fin 9) : (rowCells i).card = 9 := by
  revert i; decide

theorem colCells_card (j : Fin 9) : (colCells j).card = 9 := by
  revert j; decide

theorem blockCells_card (b : Fin 3 × Fin 3) : (blockCells b).card = 9 := by
  revert b; decide

theorem rowCells_neighbor {i : Fin 9} {c c' : Cell} (hc : c ∈ rowCells i)
    (hc' : c' ∈ rowCells i) (hne : c ≠ c') : neighbor_spec c c' := by
  rw [mem_rowCells] at hc hc'
  exact ⟨fun h => hne h.symm, Or.inl (hc'.trans hc.symm)⟩

theorem colCells_neighbor {j : Fin 9} {c c' : Cell} (hc : c ∈ colCells j)
    (hc' : c' ∈ colCells j) (hne : c ≠ c') : neighbor_spec c c' := by
  rw [mem_colCells] at hc hc'
  exact ⟨fun h => hne h.symm, Or.inr (Or.inl (hc'.trans hc.symm))⟩

theorem blockCells_neighbor {b : Fin 3 × Fin 3} {c c' : Cell} (hc : c ∈ blockCells b)
    (hc' : c' ∈ blockCells b) (hne : c ≠ c') : neighbor_spec c c' := by
  rw [mem_blockCells] at hc hc'
  exact ⟨fun h => hne h.symm, Or.inr (Or.inr ⟨hc'.1.trans hc.1.symm, hc'.2.trans hc.2.symm⟩)⟩

/-- Pigeonhole: on a 9-cell unit with pairwise distinct values drawn from
`1..9`, every value of `1..9` appears exactly once. -/
theorem unit_exactly_once {s : Grid} {u : Finset Cell} (hcard : u.card = 9)
    (hrange : ∀ c ∈ u, s c.1 c.2 ∈ Finset.Icc (1 : ℕ) 9)
    (hdist : ∀ c ∈ u, ∀ c' ∈ u, c ≠ c' → s c.1 c.2 ≠ s c'.1 c'.2) :
    ∀ v ∈ Finset.Icc (1 : ℕ) 9, unitCount s u v = 1 := by
  intro v hv
  have hinj : Set.InjOn (fun c : Cell => s c.1 c.2) u := by
    intro x hx y hy hxy
    by_contra hne
    exact hdist x hx y hy hne hxy
  have hximg : (u.image fun c => s c.1 c.2).card = 9 := by
    rw [Finset.card_image_of_injOn hinj, hcard]
  have himg : (u.image fun c => s c.1 c.2) = Finset.Icc 1 9 := by
    refine Finset.eq_of_subset_of_card_le ?_ ?_
    · intro w hw
      obtain ⟨c, hc, rfl⟩ := Finset.mem_image.mp hw
      exact hrange c hc
    · rw [hximg]
      simp
  have hvimg : v ∈ u.image fun c => s c.1 c.2 := himg ▸ hv
  obtain ⟨c, hc, hfc⟩ := Finset.mem_image.mp hvimg
  rw [unitCount, Finset.card_eq_one]
  refine ⟨c, ?_⟩
  ext c'
  simp only [Finset.mem_filter, Finset.mem_singleton]
  constructor
  · rintro ⟨hc', he⟩
    exact hinj hc' hc (show s c'.1 c'.2 = s c.1 c.2 by rw [he, hfc])
  · rintro rfl
    exact ⟨hc, hfc⟩

/-- Conversely, exactly-once counts force every value on the unit into `1..9`. -/
theorem unit_values_range {s : Grid} {u : Finset Cell} (hcard : u.card = 9)
    (hcount : ∀ v ∈ Finset.Icc (1 : ℕ) 9, unitCount s u v = 1) :
    ∀ c ∈ u, s c.1 c.2 ∈ Finset.Icc (1 : ℕ) 9 := by
  classical
  have hdisj : ∀ v1 ∈ Finset.Icc (1 : ℕ) 9, ∀ v2 ∈ Finset.Icc (1 : ℕ) 9, v1 ≠ v2 →
      Disjoint (u.filter fun c => s c.1 c.2 = v1) (u.filter fun c => s c.1 c.2 = v2) := by
    intro v1 _ v2 _ hne
    refine Finset.disjoint_left.mpr fun c hc1 hc2 => ?_
    have h1 := (Finset.mem_filter.mp hc1).2
    have h2 := (Finset.mem_filter.mp hc2).2
    exact hne (h1.symm.trans h2)
  have hsub : ((Finset.Icc (1 : ℕ) 9).biUnion fun v => u.filter fun c => s c.1 c.2 = v) ⊆ u :=
    Finset.biUnion_subset.mpr fun v _ => Finset.filter_subset _ _
  have hcardb :
      ((Finset.Icc (1 : ℕ) 9).biUnion fun v => u.filter fun c => s c.1 c.2 = v).card = 9 := by
    rw [Finset.card_biUnion hdisj]
    have : ∀ v ∈ Finset.Icc (1 : ℕ) 9, (u.filter fun c => s c.1 c.2 = v).card = 1 := by
      intro v hv
      have := hcount v hv
      rwa [unitCount] at this
    rw [Finset.sum_congr rfl this]
    simp
  have hequ : ((Finset.Icc (1 : ℕ) 9).biUnion fun v => u.filter fun c => s c.1 c.2 = v) = u :=
    Finset.eq_of_subset_of_card_le hsub (by rw [hcardb, hcard])
  intro c hc
  rw [← hequ] at hc
  obtain ⟨v, hv, hcf⟩ := Finset.mem_biUnion.mp hc
  exact (Finset.mem_filter.mp hcf).2 ▸ hv

theorem valid_of_pointwise {sol : Grid}
    (hrange : ∀ c : Cell, sol c.1 c.2 ∈ Finset.Icc (1 : ℕ) 9)
    (hne : ∀ a b : Cell, neighbor_spec a b → sol a.1 a.2 ≠ sol b.1 b.2) :
    validSolution sol := by
  refine ⟨fun i => ?_, fun j => ?_, fun b => ?_⟩
  · exact unit_exactly_once (rowCells_card i) (fun c _ => hrange c)
      fun c hc c' hc' hcc => hne c c' (rowCells_neighbor hc hc' hcc)
  · exact unit_exactly_once (colCells_card j) (fun c _ => hrange c)
      fun c hc c' hc' hcc => hne c c' (colCells_neighbor hc hc' hcc)
  · exact unit_exactly_once (blockCells_card b) (fun c _ => hrange c)
      fun c hc c' hc' hcc => hne c c' (blockCells_neighbor hc hc' hcc)

theorem validSolution_range {s : Grid} (hs : validSolution s) (c : Cell) :
    s c.1 c.2 ∈ Finset.Icc (1 : ℕ) 9 :=
  unit_values_range (rowCells_card c.1) (hs.1 c.1) c (mem_rowCells.mpr rfl)

theorem two_in_unit_absurd {s : Grid} {u : Finset Cell} {a b : Cell} (ha : a ∈ u) (hb : b ∈ u)
    (hne : a ≠ b) (he : s a.1 a.2 = s b.1 b.2) (hcard : u.card = 9)
    (hcount : ∀ v ∈ Finset.Icc (1 : ℕ) 9, unitCount s u v = 1) : False := by
  have hv : s a.1 a.2 ∈ Finset.Icc (1 : ℕ) 9 := unit_values_range hcard hcount a ha
  have hsub : ({a, b} : Finset Cell) ⊆ u.filter fun c => s c.1 c.2 = s a.1 a.2 := by
    intro c hc
    rcases Finset.mem_insert.mp hc with rfl | hc
    · exact Finset.mem_filter.mpr ⟨ha, rfl⟩
    · rw [Finset.mem_singleton] at hc
      subst hc
      exact Finset.mem_filter.mpr ⟨hb, he.symm⟩
  have h2 : 2 ≤ (u.filter fun c => s c.1 c.2 = s a.1 a.2).card := by
    calc 2 = ({a, b} : Finset Cell).card := (Finset.card_pair hne).symm
      _ ≤ _ := Finset.card_le_card hsub
  have h1 := hcount _ hv
  rw [unitCount] at h1
  omega

theorem validSolution_neighbor_ne {s : Grid} (hs : validSolution s) :
    ∀ a b : Cell, neighbor_spec a b → s a.1 a.2 ≠ s b.1 b.2 := by
  intro a b hn he
  have hab : a ≠ b := fun h => (neighbor_spec_ne hn) h.symm
  obtain ⟨-, h1 | h2 | h3⟩ := hn
  · exact two_in_unit_absurd (mem_rowCells.mpr rfl) (mem_rowCells.mpr h1) hab he
      (rowCells_card a.1) (hs.1 a.1)
  · exact two_in_unit_absurd (mem_colCells.mpr rfl) (mem_colCells.mpr h2) hab he
      (colCells_card a.2) (hs.2.1 a.2)
  · have hb1 : a.1.val / 3 < 3 := by
      have := a.1.isLt
      omega
    have hb2 : a.2.val / 3 < 3 := by
      have := a.2.isLt
      omega
    exact two_in_unit_absurd (b := b)
      (mem_blockCells.mpr ⟨rfl, rfl⟩)
      (mem_blockCells.mpr ⟨h3.1, h3.2⟩) hab he
      (blockCells_card (⟨a.1.val / 3, hb1⟩, ⟨a.2.val / 3, hb2⟩))
      (hs.2.2 (⟨a.1.val / 3, hb1⟩, ⟨a.2.val / 3, hb2⟩))

/-! ### Facts about the domain store -/

theorem initialize_domains_nonempty (g : Grid) (c : Cell) : initialize_domains g c ≠ ∅ := by
  unfold initialize_domains
  split
  · simp
  · simp

theorem initialize_domains_subset_Icc {g : Grid} (hWF : gridWF g) (c : Cell) :
    initialize_domains g c ⊆ Finset.Icc 1 9 := by
  unfold initialize_domains
  split
  · exact Finset.Subset.refl _
  next h =>
    intro x hx
    rw [Finset.mem_singleton] at hx
    subst hx
    rw [Finset.mem_Icc]
    exact ⟨Nat.one_le_iff_ne_zero.mpr h, hWF c.1 c.2⟩

theorem initialize_domains_clue {g : Grid} {c : Cell} (h : g c.1 c.2 ≠ 0) :
    initialize_domains g c = {g c.1 c.2} := by
  unfold initialize_domains
  rw [if_neg h]

theorem is_solved_spec {d : Domains} : is_solved d = true ↔ ∀ c : Cell, (d c).card = 1 := by
  unfold is_solved
  simp

theorem get_solution_singleton {d : Domains} {c : Cell} {v : ℕ} (h : d c = {v}) :
    get_solution d c.1 c.2 = v := by
  unfold get_solution
  rw [show ((c.1, c.2) : Cell) = c from rfl, h, Finset.min_singleton]
  rfl

/-! ### Branching behavior of `solve_sudoku` -/

theorem solve_sudoku_eq_body (g : Grid) :
    solve_sudoku g = solveBody (ac3_run (initialize_domains g)) := rfl

theorem solveBody_of_none {s : AC3State} (h : s.result = none) :
    solveBody s = ⟨none, s.trace, false⟩ := by
  unfold solveBody
  rw [h]

theorem solveBody_of_false {s : AC3State} (h : s.result = some false) :
    solveBody s = ⟨none, s.trace, false⟩ := by
  unfold solveBody
  rw [h]

theorem solveBody_of_solved {s : AC3State} (ht : s.result = some true)
    (hs : is_solved s.domains = true) :
    solveBody s = ⟨some (get_solution s.domains), s.trace, false⟩ := by
  unfold solveBody
  rw [ht]
  simp [hs]

theorem solveBody_of_search_none {s : AC3State} (ht : s.result = some true)
    (hs : is_solved s.domains = false)
    (hbs : backtracking_search s.domains = none) :
    solveBody s = ⟨none, s.trace, true⟩ := by
  unfold solveBody
  rw [ht]
  simp [hs, hbs]

theorem solveBody_of_search_some_empty {s : AC3State} {r : Assignment}
    (ht : s.result = some true) (hs : is_solved s.domains = false)
    (hbs : backtracking_search s.domains = some r) (hne : r.isEmpty = true) :
    solveBody s = ⟨none, s.trace, true⟩ := by
  unfold solveBody
  rw [ht]
  simp [hs, hbs, hne]

theorem solveBody_of_search_some {s : AC3State} {r : Assignment}
    (ht : s.result = some true) (hs : is_solved s.domains = false)
    (hbs : backtracking_search s.domains = some r) (hne : r.isEmpty = false) :
    solveBody s = ⟨some (fun i j => (alookup r (i, j)).getD 0), s.trace, true⟩ := by
  unfold solveBody
  rw [ht]
  simp [hs, hbs, hne]

/-- Inversion: everything that can be behind a returned grid. -/
theorem solve_sudoku_solution_cases {g : Grid} {sol : Grid}
    (h : (solve_sudoku g).solution = some sol) :
    (ac3_run (initialize_domains g)).result = some true ∧
      ((is_solved (ac3_run (initialize_domains g)).domains = true ∧
          sol = get_solution (ac3_run (initialize_domains g)).domains) ∨
        (is_solved (ac3_run (initialize_domains g)).domains = false ∧
          ∃ r, backtrack (ac3_run (initialize_domains g)).domains 82 [] = some (some r) ∧
            sol = fun i j => (alookup r (i, j)).getD 0)) := by
  rw [solve_sudoku_eq_body] at h
  rcases hres : (ac3_run (initialize_domains g)).result with _ | b
  · rw [solveBody_of_none hres] at h
    cases h
  · cases b
    · rw [solveBody_of_false hres] at h
      cases h
    · refine ⟨rfl, ?_⟩
      rcases hsv : is_solved (ac3_run (initialize_domains g)).domains with _ | _
      · rcases hbs : backtracking_search (ac3_run (initialize_domains g)).domains with _ | r
        · rw [solveBody_of_search_none hres hsv hbs] at h
          cases h
        · rcases hemp : r.isEmpty with _ | _
          · rw [solveBody_of_search_some hres hsv hbs hemp] at h
            refine Or.inr ⟨rfl, r, backtracking_search_eq_some.mp hbs, ?_⟩
            exact (Option.some.injEq .. ▸ h).symm
          · rw [solveBody_of_search_some_empty hres hsv hbs hemp] at h
            cases h
      · rw [solveBody_of_solved hres hsv] at h
        exact Or.inl ⟨rfl, (Option.some.injEq .. ▸ h).symm⟩

/-- The two pointwise facts behind soundness: every returned value sits in the
final (hence the initial) domain of its cell, and assigned neighbors differ. -/
theorem solve_grid_props {g : Grid} {sol : Grid}
    (h : (solve_sudoku g).solution = some sol) :
    (∀ c : Cell, sol c.1 c.2 ∈ (ac3_run (initialize_domains g)).domains c) ∧
      ∀ a b : Cell, neighbor_spec a b → sol a.1 a.2 ≠ sol b.1 b.2 := by
  obtain ⟨ht, hcase⟩ := solve_sudoku_solution_cases h
  rcases hcase with ⟨hsv, rfl⟩ | ⟨hsv, r, hbt, rfl⟩
  · have hcard := is_solved_spec.mp hsv
    have hsingle : ∀ c : Cell, ∃ v, (ac3_run (initialize_domains g)).domains c = {v} ∧
        get_solution (ac3_run (initialize_domains g)).domains c.1 c.2 = v := by
      intro c
      obtain ⟨v, hv⟩ := Finset.card_eq_one.mp (hcard c)
      exact ⟨v, hv, get_solution_singleton hv⟩
    constructor
    · intro c
      obtain ⟨v, hv, hget⟩ := hsingle c
      rw [hget, hv]
      exact Finset.mem_singleton_self v
    · intro a b hn
      obtain ⟨va, hva, hgeta⟩ := hsingle a
      obtain ⟨vb, hvb, hgetb⟩ := hsingle b
      rw [hgeta, hgetb]
      have hac := ac3_run_arcCons ht a b hn
      obtain ⟨y, hy, hne⟩ := hac va (by rw [hva]; exact Finset.mem_singleton_self va)
      rw [hvb, Finset.mem_singleton] at hy
      rwa [hy] at hne
  · obtain ⟨hOK, hlen⟩ :=
      backtrack_sound 82 _ [] r ⟨List.nodup_nil, by simp, by simp⟩ hbt
    have htotal : ∀ c : Cell, ∃ v, alookup r c = some v := by
      intro c
      exact Option.isSome_iff_exists.mp (alookup_total hOK.1 hlen c)
    constructor
    · intro c
      obtain ⟨v, hv⟩ := htotal c
      show (alookup r c).getD 0 ∈ (ac3_run (initialize_domains g)).domains c
      rw [hv]
      exact assignOK_lookup hOK hv
    · intro a b hn
      obtain ⟨va, hva⟩ := htotal a
      obtain ⟨vb, hvb⟩ := htotal b
      show (alookup r a).getD 0 ≠ (alookup r b).getD 0
      rw [hva, hvb]
      exact assignOK_lookup_ne hOK hn hva hvb

/-! ### Runs in which no revision ever fires -/

theorem ac3_step_fail_eq {s : AC3State} {xi xj : Cell} {rest : List (Cell × Cell)}
    (hres : s.result = none) (hq : s.queue = (xi, xj) :: rest)
    (hrev : (revise s.domains xi xj).1 = true)
    (hemp : (revise s.domains xi xj).2 xi = ∅) :
    ac3_step s = ⟨rest, (revise s.domains xi xj).2,
      s.trace ++ [s.queue.length], some false⟩ := by
  rcases ac3_step_char s with ⟨b, hres', he⟩ | ⟨_, hq', he⟩ |
    ⟨xi', xj', rest', _, hq', hr', hemp', he⟩ | ⟨xi', xj', rest', _, hq', hr', hne', he⟩ |
    ⟨xi', xj', rest', _, hq', hr', he⟩
  · rw [hres] at hres'
    cases hres'
  · rw [hq] at hq'
    cases hq'
  · rw [hq] at hq'
    obtain ⟨h1, h2⟩ := List.cons.injEq .. ▸ hq'
    obtain ⟨h3, h4⟩ := Prod.mk.injEq .. ▸ h1
    subst h3; subst h4; subst h2
    exact he
  · rw [hq] at hq'
    obtain ⟨h1, h2⟩ := List.cons.injEq .. ▸ hq'
    obtain ⟨h3, h4⟩ := Prod.mk.injEq .. ▸ h1
    subst h3; subst h4; subst h2
    exact absurd hemp hne'
  · rw [hq] at hq'
    obtain ⟨h1, h2⟩ := List.cons.injEq .. ▸ hq'
    obtain ⟨h3, h4⟩ := Prod.mk.injEq .. ▸ h1
    subst h3; subst h4; subst h2
    rw [hrev] at hr'
    cases hr'

/-- If no neighbor arc can be revised on `d`, a whole run leaves the store
untouched and cannot fail. -/
theorem ac3_run_no_revise {d : Domains}
    (h : ∀ xi xj : Cell, neighbor_spec xi xj → (revise d xi xj).1 = false) :
    (ac3_run d).domains = d ∧ (ac3_run d).result ≠ some false := by
  have hinv : ∀ n, (ac3_step^[n] (ac3_init d)).domains = d ∧
      (ac3_step^[n] (ac3_init d)).result ≠ some false ∧
      QueueArcs (ac3_step^[n] (ac3_init d)) := by
    intro n
    refine ac3_invariant
      (fun s => s.domains = d ∧ s.result ≠ some false ∧ QueueArcs s) ?_ ?_ n
    · intro s hs
      obtain ⟨hd, hres, hqa⟩ := hs
      rcases ac3_step_char s with ⟨b, _, he⟩ | ⟨_, hq, he⟩ |
        ⟨xi, xj, rest, _, hq, hr, hemp, he⟩ | ⟨xi, xj, rest, _, hq, hr, hne, he⟩ |
        ⟨xi, xj, rest, _, hq, hr, he⟩
      · rw [he]
        exact ⟨hd, hres, hqa⟩
      · rw [he]
        exact ⟨hd, by simp, hqa⟩
      · exfalso
        have hnb : neighbor_spec xi xj := hqa (xi, xj) (by rw [hq]; exact List.mem_cons_self _ _)
        rw [hd] at hr
        rw [h xi xj hnb] at hr
        cases hr
      · exfalso
        have hnb : neighbor_spec xi xj := hqa (xi, xj) (by rw [hq]; exact List.mem_cons_self _ _)
        rw [hd] at hr
        rw [h xi xj hnb] at hr
        cases hr
      · rw [he]
        refine ⟨hd, by simp, ?_⟩
        exact fun p hp => hqa p (by rw [hq]; exact List.mem_cons_of_mem _ hp)
    · refine ⟨rfl, ?_, fun p hp => mem_initial_queue.mp hp⟩
      rw [ac3_init_result]
      simp
  constructor
  · rw [ac3_run_def]
    exact (hinv ac3_fuel).1
  · rw [ac3_run_def]
    exact (hinv ac3_fuel).2.1

theorem ac3_run_no_revise_true {d : Domains} (hts : totalSize d ≤ 729)
    (h : ∀ xi xj : Cell, neighbor_spec xi xj → (revise d xi xj).1 = false) :
    (ac3_run d).result = some true ∧ (ac3_run d).domains = d := by
  obtain ⟨hdom, hne⟩ := ac3_run_no_revise h
  have hsome := ac3_run_isSome hts
  rcases hres : (ac3_run d).result with _ | b
  · rw [hres] at hsome
    cases hsome
  · cases b
    · exact absurd hres hne
    · exact ⟨rfl, hdom⟩

/-! ### Concrete run facts -/

theorem solvedGrid_no_revise : ∀ xi xj : Cell, neighbor_spec xi xj →
    (revise (initialize_domains solvedGrid) xi xj).1 = false := by
  decide

theorem solvedGrid_is_solved : is_solved (initialize_domains solvedGrid) = true := by
  decide

theorem get_solution_solvedGrid :
    get_solution (initialize_domains solvedGrid) = solvedGrid := by
  funext i j
  revert i j
  decide

theorem solve_sudoku_solvedGrid :
    (solve_sudoku solvedGrid).solution = some solvedGrid ∧
      (solve_sudoku solvedGrid).backtrack_invoked = false := by
  obtain ⟨hres, hdom⟩ :=
    ac3_run_no_revise_true (totalSize_initialize_domains solvedGrid) solvedGrid_no_revise
  have hsv : is_solved (ac3_run (initialize_domains solvedGrid)).domains = true := by
    rw [hdom]
    exact solvedGrid_is_solved
  rw [solve_sudoku_eq_body, solveBody_of_solved hres hsv]
  refine ⟨?_, rfl⟩
  show some (get_solution (ac3_run (initialize_domains solvedGrid)).domains) = some solvedGrid
  rw [hdom, get_solution_solvedGrid]

theorem dupRow_first_step :
    (ac3_step (ac3_init (initialize_domains dupRowGrid))).result = some false := by
  decide

theorem dupRow_ac3_fails :
    (ac3_run (initialize_domains dupRowGrid)).result = some false := by
  rw [ac3_run_def]
  have hfuel : ac3_fuel = 16200 + 1 := rfl
  rw [hfuel, Function.iterate_succ_apply, ac3_iterate_done dupRow_first_step]
  exact dupRow_first_step

/-! ### Remaining helper lemmas -/

theorem backtrack_length : ∀ (fuel : ℕ) (d : Domains) (a r : Assignment),
    backtrack d fuel a = some (some r) → r.length = 81 := by
  intro fuel
  induction fuel with
  | zero =>
    intro d a r h
    rw [backtrack_zero] at h
    cases h
  | succ fuel ih =>
    intro d a r h
    rw [backtrack_succ] at h
    by_cases hlen : a.length = 81
    · rw [if_pos hlen] at h
      obtain rfl : a = r := by cases h; rfl
      exact hlen
    · rw [if_neg hlen] at h
      rcases hsel : select_unassigned_variable d a with _ | var
      · rw [hsel] at h
        cases h
      · rw [hsel] at h
        obtain ⟨value, _, _, hbt⟩ := tryValues_eq_some _ h
        exact ih d ((var, value) :: a) r hbt

theorem initialize_domains_ne_zero (g : Grid) (c : Cell) {x : ℕ}
    (hx : x ∈ initialize_domains g c) : x ≠ 0 := by
  unfold initialize_domains at hx
  split at hx
  · rw [Finset.mem_Icc] at hx
    omega
  next h =>
    rw [Finset.mem_singleton] at hx
    subst hx
    exact h

/-! ### Output grids are completions; unique completions are returned -/

/-- Any grid returned by `solve_sudoku` on a well-formed input is a valid
completion of the input. -/
theorem solve_output_isCompletion {g : Grid} (hWF : gridWF g) {sol : Grid}
    (h : (solve_sudoku g).solution = some sol) : isCompletion g sol := by
  obtain ⟨hmem, hne⟩ := solve_grid_props h
  have hmem0 : ∀ c : Cell, sol c.1 c.2 ∈ initialize_domains g c :=
    fun c => ac3_run_domains_subset _ c (hmem c)
  constructor
  · intro i j hij
    have hc := hmem0 (i, j)
    rw [initialize_domains_clue hij] at hc
    exact Finset.mem_singleton.mp hc
  · exact valid_of_pointwise (fun c => initialize_domains_subset_Icc hWF c (hmem0 c)) hne

theorem completion_mem_init_domains {g s : Grid} (hs : isCompletion g s) (c : Cell) :
    s c.1 c.2 ∈ initialize_domains g c := by
  unfold initialize_domains
  split
  · exact validSolution_range hs.2 c
  next h =>
    rw [Finset.mem_singleton]
    exact hs.1 c.1 c.2 h

/-- If `s` is the unique valid completion of `g`, the solver returns it. -/
theorem solve_sudoku_returns_completion {g : Grid} (hWF : gridWF g) {s : Grid}
    (hs : isCompletion g s) (huniq : ∀ s' : Grid, isCompletion g s' → s' = s) :
    (solve_sudoku g).solution = some s := by
  have hnes : ∀ a b : Cell, neighbor_spec a b → s a.1 a.2 ≠ s b.1 b.2 :=
    validSolution_neighbor_ne hs.2
  obtain ⟨hnf, hmemD⟩ := ac3_run_solPres hnes (completion_mem_init_domains hs)
  have hsome := ac3_run_isSome (totalSize_initialize_domains g)
  have hres : (ac3_run (initialize_domains g)).result = some true := by
    rcases hr : (ac3_run (initialize_domains g)).result with _ | b
    · rw [hr] at hsome
      cases hsome
    · cases b
      · exact absurd hr hnf
      · rfl
  rcases hsv : is_solved (ac3_run (initialize_domains g)).domains with _ | _
  · obtain ⟨r, hbt⟩ := backtrack_complete 82 _ [] (fun c => s c.1 c.2)
      ⟨hmemD, hnes⟩ (fun p hp => absurd hp (List.not_mem_nil _)) List.nodup_nil (by decide)
    have hbs := backtracking_search_eq_some.mpr hbt
    have hlen := backtrack_length 82 _ [] r hbt
    have hemp : r.isEmpty = false := by
      rcases r with _ | ⟨p, rest⟩
      · simp at hlen
      · rfl
    rw [solve_sudoku_eq_body, solveBody_of_search_some hres hsv hbs hemp]
    show some (fun i j => (alookup r (i, j)).getD 0) = some s
    have hcomp : isCompletion g (fun i j => (alookup r (i, j)).getD 0) := by
      refine solve_output_isCompletion hWF ?_
      rw [solve_sudoku_eq_body, solveBody_of_search_some hres hsv hbs hemp]
    rw [huniq _ hcomp]
  · rw [solve_sudoku_eq_body, solveBody_of_solved hres hsv]
    show some (get_solution (ac3_run (initialize_domains g)).domains) = some s
    have hcard := is_solved_spec.mp hsv
    have hget : ∀ c : Cell,
        get_solution (ac3_run (initialize_domains g)).domains c.1 c.2 = s c.1 c.2 := by
      intro c
      obtain ⟨v, hv⟩ := Finset.card_eq_one.mp (hcard c)
      have hmem := hmemD c
      rw [hv, Finset.mem_singleton] at hmem
      rw [get_solution_singleton hv, ← hmem]
    have hfun : get_solution (ac3_run (initialize_domains g)).domains = s :=
      funext fun i => funext fun j => hget (i, j)
    rw [hfun]

/-! ### The frame property of the search through `self` -/

theorem tryValuesS_frame {bt : Assignment → SudokuCSP → Option (Option Assignment) × SudokuCSP}
    (hbt : ∀ a' csp', (bt a' csp').2 = csp') (var : Cell) (a : Assignment) :
    ∀ (values : List ℕ) (csp : SudokuCSP), (tryValuesS bt var a values csp).2 = csp := by
  intro values
  induction values with
  | nil =>
    intro csp
    rfl
  | cons value rest ih =>
    intro csp
    simp only [tryValuesS]
    by_cases hc : (is_consistentS csp var value a).1
    · rw [if_pos hc]
      rcases hr : (bt ((var, value) :: a) (is_consistentS csp var value a).2).1 with _ | ov
      · show (bt ((var, value) :: a) (is_consistentS csp var value a).2).2 = csp
        exact hbt _ _
      · rcases ov with _ | r'
        · rw [hbt ((var, value) :: a) (is_consistentS csp var value a).2]
          exact ih csp
        · show (bt ((var, value) :: a) (is_consistentS csp var value a).2).2 = csp
          exact hbt _ _
    · rw [if_neg hc]
      exact ih csp

theorem backtrackS_zero (a : Assignment) (csp : SudokuCSP) :
    backtrackS 0 a csp = (none, csp) := rfl

theorem backtrackS_succ (fuel : ℕ) (a : Assignment) (csp : SudokuCSP) :
    backtrackS (fuel + 1) a csp =
      (if a.length = 81 then (some (some a), csp)
      else
        match (select_unassigned_variableS csp a).1 with
        | none => (some none, (select_unassigned_variableS csp a).2)
        | some var =>
          tryValuesS (backtrackS fuel) var a
            (least_constraining_valuesS (select_unassigned_variableS csp a).2 var a).1
            (least_constraining_valuesS (select_unassigned_variableS csp a).2 var a).2) := rfl

theorem backtrackS_frame : ∀ (fuel : ℕ) (a : Assignment) (csp : SudokuCSP),
    (backtrackS fuel a csp).2 = csp := by
  intro fuel
  induction fuel with
  | zero =>
    intro a csp
    rfl
  | succ fuel ih =>
    intro a csp
    rw [backtrackS_succ]
    by_cases hlen : a.length = 81
    · rw [if_pos hlen]
    · rw [if_neg hlen]
      rcases hsel : (select_unassigned_variableS csp a).1 with _ | var
      · rfl
      · exact tryValuesS_frame (fun a' csp' => ih a' csp') var a _ _

/-! ### The claims -/

/-- C1: for every well-formed input grid on which `solve_sudoku` returns a
grid, every row, column, and 3×3 block of the returned grid contains each of
the values 1 through 9 exactly once, and every cell holding a non-zero clue
in the input retains that value in the output. -/
theorem solve_sudoku_sound (g : Grid) (hWF : gridWF g) (sol : Grid)
    (h : (solve_sudoku g).solution = some sol) :
    validSolution sol ∧ ∀ i j : Fin 9, g i j ≠ 0 → sol i j = g i j := by
  have hc := solve_output_isCompletion hWF h
  exact ⟨hc.2, hc.1⟩

/-- C1 witness: the fully-given valid grid is returned and satisfies the
soundness conclusion. -/
theorem solve_sudoku_sound_witness :
    gridWF solvedGrid ∧ (solve_sudoku solvedGrid).solution = some solvedGrid ∧
      (validSolution solvedGrid ∧
        ∀ i j : Fin 9, solvedGrid i j ≠ 0 → solvedGrid i j = solvedGrid i j) :=
  ⟨by decide, solve_sudoku_solvedGrid.1,
    solve_sudoku_sound solvedGrid (by decide) solvedGrid solve_sudoku_solvedGrid.1⟩

/-- C2: on a well-formed grid with exactly one valid completion, the solver
returns that completion (and hence not `none`). -/
theorem solve_sudoku_complete_unique (g : Grid) (hWF : gridWF g)
    (huniq : ∃! s : Grid, isCompletion g s) :
    ∀ s : Grid, isCompletion g s → (solve_sudoku g).solution = some s := by
  intro s hs
  obtain ⟨s0, _, huni⟩ := huniq
  refine solve_sudoku_returns_completion hWF hs fun s' hs' => ?_
  rw [huni s' hs', huni s hs]

/-- C2 witness: the fully-given valid grid is its own unique completion and
is returned. -/
theorem solve_sudoku_complete_unique_witness :
    gridWF solvedGrid ∧ (∃! s : Grid, isCompletion solvedGrid s) ∧
      (solve_sudoku solvedGrid).solution = some solvedGrid := by
  have hnz : ∀ i j : Fin 9, solvedGrid i j ≠ 0 := by decide
  have hval : validSolution solvedGrid := by decide
  have hcomp : isCompletion solvedGrid solvedGrid := ⟨fun _ _ _ => rfl, hval⟩
  have huniq : ∃! s : Grid, isCompletion solvedGrid s := by
    refine ⟨solvedGrid, hcomp, fun s' hs' => ?_⟩
    funext i j
    exact hs'.1 i j (hnz i j)
  exact ⟨by decide, huniq,
    solve_sudoku_complete_unique solvedGrid (by decide) huniq solvedGrid hcomp⟩

/-- C3: if a revision empties a domain, the very next step of the `ac3` loop
returns failure and the remaining worklist is never processed (the state is
final); whenever `ac3` fails, `solve_sudoku` returns `none` without invoking
backtracking; in particular two equal clues in row 0 make AC-3 fail with no
backtracking. -/
theorem ac3_failfast_no_backtrack (s : AC3State) (xi xj : Cell)
    (rest : List (Cell × Cell)) (hres : s.result = none)
    (hq : s.queue = (xi, xj) :: rest) (hrev : (revise s.domains xi xj).1 = true)
    (hemp : (revise s.domains xi xj).2 xi = ∅) :
    (ac3_step s).result = some false ∧
      (∀ k, ac3_step^[k] (ac3_step s) = ac3_step s) ∧
      (∀ g : Grid, (ac3_run (initialize_domains g)).result = some false →
        (solve_sudoku g).solution = none ∧ (solve_sudoku g).backtrack_invoked = false) ∧
      ((ac3_run (initialize_domains dupRowGrid)).result = some false ∧
        (solve_sudoku dupRowGrid).solution = none ∧
        (solve_sudoku dupRowGrid).backtrack_invoked = false) := by
  have hstep := ac3_step_fail_eq hres hq hrev hemp
  have hfail : (ac3_step s).result = some false := by
    rw [hstep]
  refine ⟨hfail, fun k => ac3_iterate_done hfail k, ?_, ?_⟩
  · intro g hg
    rw [solve_sudoku_eq_body, solveBody_of_false hg]
    exact ⟨rfl, rfl⟩
  · refine ⟨dupRow_ac3_fails, ?_⟩
    rw [solve_sudoku_eq_body, solveBody_of_false dupRow_ac3_fails]
    exact ⟨rfl, rfl⟩

/-- C3 witness: the duplicate-clue grid provides a state whose first popped
arc empties a domain, and the loop indeed fails on that very step. -/
theorem ac3_failfast_no_backtrack_witness :
    ((ac3_init (initialize_domains dupRowGrid)).result = none ∧
      (ac3_init (initialize_domains dupRowGrid)).queue =
        (((0 : Fin 9), (0 : Fin 9)), ((0 : Fin 9), (1 : Fin 9))) ::
          (ac3_init (initialize_domains dupRowGrid)).queue.tail ∧
      (revise (ac3_init (initialize_domains dupRowGrid)).domains
        ((0 : Fin 9), (0 : Fin 9)) ((0 : Fin 9), (1 : Fin 9))).1 = true ∧
      (revise (ac3_init (initialize_domains dupRowGrid)).domains
        ((0 : Fin 9), (0 : Fin 9)) ((0 : Fin 9), (1 : Fin 9))).2
          ((0 : Fin 9), (0 : Fin 9)) = ∅) ∧
    (ac3_step (ac3_init (initialize_domains dupRowGrid))).result = some false := by
  have hhead : (ac3_init (initialize_domains dupRowGrid)).queue.head? =
      some (((0 : Fin 9), (0 : Fin 9)), ((0 : Fin 9), (1 : Fin 9))) := by decide
  have hq : (ac3_init (initialize_domains dupRowGrid)).queue =
      (((0 : Fin 9), (0 : Fin 9)), ((0 : Fin 9), (1 : Fin 9))) ::
        (ac3_init (initialize_domains dupRowGrid)).queue.tail :=
    (List.cons_head?_tail (Option.mem_def.mpr hhead)).symm
  exact ⟨⟨rfl, hq, by decide, by decide⟩,
    (ac3_failfast_no_backtrack (ac3_init (initialize_domains dupRowGrid))
      ((0 : Fin 9), (0 : Fin 9)) ((0 : Fin 9), (1 : Fin 9))
      (ac3_init (initialize_domains dupRowGrid)).queue.tail
      rfl hq (by decide) (by decide)).1⟩

/-- C4 counterexample: on the grid with a single clue `5` at `(0, 1)`, the
run is still active after one iteration and the worklist already holds
1638 > 1620 arcs (the code re-enqueues without deduplication). -/
theorem worklist_exceeds_1620 :
    (ac3_step^[1] (ac3_init (initialize_domains oneClueGrid))).result = none ∧
      1620 < (ac3_step^[1] (ac3_init (initialize_domains oneClueGrid))).queue.length := by
  decide

/-- C4 (amended): throughout an `ac3` run the worklist never holds more than
`16200 = 81*20 + 20*9*81` arcs (the original `1620` bound fails because
re-enqueued arcs are not deduplicated), and the backtracking search from the
real entry point finishes within recursion depth 81 (fuel 82 is never
exhausted). -/
theorem worklist_bound_and_search_depth (g : Grid) (n : ℕ) (d : Domains) :
    (ac3_step^[n] (ac3_init (initialize_domains g))).queue.length ≤ 16200 ∧
      (backtrack d 82 []).isSome = true := by
  constructor
  · have hqb := ac3_reach_queueBound (initialize_domains g) (totalSize_initialize_domains g) n
    unfold QueueBound at hqb
    omega
  · exact backtrack_isSome 82 d [] List.nodup_nil (by decide)

/-- C5: across one `ac3` run, every cell's domain at a later step is a subset
of its domain at any earlier step, so domain sizes never increase. -/
theorem ac3_domains_monotone (g : Grid) (n k : ℕ) (c : Cell) :
    (ac3_step^[n + k] (ac3_init (initialize_domains g))).domains c ⊆
      (ac3_step^[n] (ac3_init (initialize_domains g))).domains c ∧
    ((ac3_step^[n + k] (ac3_init (initialize_domains g))).domains c).card ≤
      ((ac3_step^[n] (ac3_init (initialize_domains g))).domains c).card := by
  have h := ac3_iterate_domains_subset (ac3_init (initialize_domains g)) n k c
  exact ⟨h, Finset.card_le_card h⟩

/-- C6: a successful `ac3` run reaches a fixed point: re-running `ac3` on the
stabilized store changes no domain. -/
theorem ac3_idempotent (d : Domains) (h : (ac3_run d).result = some true) :
    (ac3_run ((ac3_run d).domains)).domains = (ac3_run d).domains := by
  refine (ac3_run_no_revise ?_).1
  intro xi xj hn
  exact revise_false_of_arcCons (ac3_run_arcCons h xi xj hn)

/-- C6 witness: the fully-given valid grid's store is already stable and its
run succeeds; re-running changes nothing. -/
theorem ac3_idempotent_witness :
    (ac3_run (initialize_domains solvedGrid)).result = some true ∧
      (ac3_run ((ac3_run (initialize_domains solvedGrid)).domains)).domains =
        (ac3_run (initialize_domains solvedGrid)).domains :=
  ⟨(ac3_run_no_revise_true (totalSize_initialize_domains solvedGrid) solvedGrid_no_revise).1,
    ac3_idempotent (initialize_domains solvedGrid)
      (ac3_run_no_revise_true (totalSize_initialize_domains solvedGrid) solvedGrid_no_revise).1⟩

/-- C7: the solver is deterministic: two runs on equal grids produce the same
outcome (same solved grid or failure signal and same `queue_lengths` trace)
and identical search traces. -/
theorem solve_sudoku_deterministic (g1 g2 : Grid) (h : g1 = g2) :
    solve_sudoku g1 = solve_sudoku g2 ∧ search_trace g1 = search_trace g2 := by
  subst h
  exact ⟨rfl, rfl⟩

/-- C7 witness: determinism instantiated on a concrete grid. -/
theorem solve_sudoku_deterministic_witness :
    solvedGrid = solvedGrid ∧
      (solve_sudoku solvedGrid = solve_sudoku solvedGrid ∧
        search_trace solvedGrid = search_trace solvedGrid) :=
  ⟨rfl, solve_sudoku_deterministic solvedGrid solvedGrid rfl⟩

/-- C8: `backtrack` never returns a partial assignment: any returned
assignment has exactly 81 entries; exhausting the candidate list returns the
explicit failure value `None`; and any grid returned by `solve_sudoku` is
complete (no cell left 0). -/
theorem backtrack_complete_or_none (d : Domains) (fuel : ℕ) (a r : Assignment)
    (hbt : backtrack d fuel a = some (some r)) (g : Grid) (sol : Grid)
    (hsol : (solve_sudoku g).solution = some sol) :
    r.length = 81 ∧
      (∀ (bt : Assignment → Option (Option Assignment)) (var : Cell) (a' : Assignment),
        tryValues bt var a' [] = some none) ∧
      ∀ i j : Fin 9, sol i j ≠ 0 := by
  refine ⟨backtrack_length fuel d a r hbt, fun _ _ _ => rfl, ?_⟩
  intro i j
  have hmem := (solve_grid_props hsol).1 (i, j)
  have hmem0 := ac3_run_domains_subset (initialize_domains g) (i, j) hmem
  exact initialize_domains_ne_zero g (i, j) hmem0

/-- C8 witness: a complete assignment is returned as-is, and the solver's
returned grid on the full example has no zero cells. -/
theorem backtrack_complete_or_none_witness :
    backtrack onesDomains 1 fullAssignment = some (some fullAssignment) ∧
      (solve_sudoku solvedGrid).solution = some solvedGrid ∧
      fullAssignment.length = 81 :=
  ⟨by decide, solve_sudoku_solvedGrid.1,
    (backtrack_complete_or_none onesDomains 1 fullAssignment fullAssignment (by decide)
      solvedGrid solvedGrid solve_sudoku_solvedGrid.1).1⟩

/-- C9: the neighbor set built by `initialize_neighbors` is exactly the other
cells sharing a row, column, or 3×3 block; the relation is symmetric and
depends only on coordinates, and every cell has exactly 20 neighbors. -/
theorem neighbors_characterization :
    (∀ c d : Cell, d ∈ initialize_neighbors c ↔
      d ≠ c ∧ (d.1 = c.1 ∨ d.2 = c.2 ∨
        (d.1.val / 3 = c.1.val / 3 ∧ d.2.val / 3 = c.2.val / 3))) ∧
      (∀ c d : Cell, d ∈ initialize_neighbors c ↔ c ∈ initialize_neighbors d) ∧
      ∀ c : Cell, (initialize_neighbors c).card = 20 := by
  refine ⟨fun c d => mem_initialize_neighbors, fun c d => ?_, ?_⟩
  · rw [mem_initialize_neighbors, mem_initialize_neighbors]
    exact ⟨neighbor_spec_symm, neighbor_spec_symm⟩
  · decide

/-- C10: backtracking search never modifies the solver state: the domain
store, the neighbor relation, and the stored puzzle are unchanged by any
`backtrackS` call and by `backtracking_searchS`. -/
theorem backtracking_search_frame (fuel : ℕ) (a : Assignment) (csp : SudokuCSP) :
    (backtrackS fuel a csp).2 = csp ∧
      (backtracking_searchS csp).2.domains = csp.domains ∧
      (backtracking_searchS csp).2.neighbors = csp.neighbors ∧
      (backtracking_searchS csp).2.puzzle = csp.puzzle := by
  have hbs : (backtracking_searchS csp).2 = csp := by
    show (backtrackS 82 [] csp).2 = csp
    exact backtrackS_frame 82 [] csp
  rw [hbs]
  exact ⟨backtrackS_frame fuel a csp, rfl, rfl, rfl⟩
